import Mathlib

/-!
Shallow embedding of the core of `src/app.py` (a legal-matter tracker):
value coercion, header reconciliation, the record builder's derivation
step, append-mode deduplication, owner auto-provisioning, the record
loader, owner deletion, and the dashboard aggregation functions.

Strings are modelled by Lean `String`; Python `str.lower` / `str.strip` /
string comparison are modelled by the structurally recursive `pyLower` /
`pyTrim` / `strLt` below, which agree with Python on the ASCII data this
application handles.
-/

namespace LegalTracker

/-- Checks whether the first char list is a prefix of the second
(helper for Python substring containment). -/
def hasPrefixChars : List Char → List Char → Bool
  | [], _ => true
  | _ :: _, [] => false
  | n :: ns, h :: hs => n == h && hasPrefixChars ns hs

/-- Python `needle in hay` (substring containment) on char lists. -/
def containsSub : List Char → List Char → Bool
  | hay, needle =>
    hasPrefixChars needle hay ||
      match hay with
      | [] => false
      | _ :: hs => containsSub hs needle

/-- Python `needle in hay` on strings. -/
def strContains (hay needle : String) : Bool :=
  containsSub hay.toList needle.toList

/-- ASCII whitespace stripped by Python `str.strip()`. -/
def isSpaceChar (c : Char) : Bool :=
  c == ' ' || c == '\t' || c == '\n' || c == '\r' || c == '\x0b' || c == '\x0c'

/-- Python `str.strip()`: drop leading and trailing whitespace. -/
def pyTrim (s : String) : String :=
  ⟨((s.toList.dropWhile isSpaceChar).reverse.dropWhile isSpaceChar).reverse⟩

/-- Lowercasing of one character (ASCII range, which covers the app's
alias tables and status tokens). -/
def lowerChar (c : Char) : Char :=
  if 'A' ≤ c && c ≤ 'Z' then Char.ofNat (c.toNat + 32) else c

/-- Python `str.lower()` on the ASCII range. -/
def pyLower (s : String) : String := ⟨s.toList.map lowerChar⟩

/-- Lexicographic comparison of char lists by code point, the order Python
uses to compare strings. -/
def charListLt : List Char → List Char → Bool
  | [], [] => false
  | [], _ :: _ => true
  | _ :: _, [] => false
  | a :: as, b :: bs =>
    if a.toNat < b.toNat then true
    else if a.toNat = b.toNat then charListLt as bs
    else false

/-- Python `a < b` on strings. -/
def strLt (a b : String) : Bool := charListLt a.toList b.toList

/-- Python `a <= b` on strings (total order, so `¬ b < a`). -/
def strLe (a b : String) : Bool := !(strLt b a)

/-- Stable insert of `x` into a list sorted by `le`: `x` goes in front of
the first element that does not have to precede it. -/
def insertLe (le : α → α → Bool) (x : α) : List α → List α
  | [] => [x]
  | y :: ys => if le x y then x :: y :: ys else y :: insertLe le x ys

/-- Stable insertion sort by the boolean relation `le`. A stable sort is
unique for a total preorder, so this agrees with Python's stable
`sorted` / `list.sort`. -/
def insertionSort (le : α → α → Bool) : List α → List α
  | [] => []
  | x :: xs => insertLe le x (insertionSort le xs)

/-- The decimal digit character for `n` (callers only use `n < 10`). -/
def digitChar : Nat → Char
  | 0 => '0'
  | 1 => '1'
  | 2 => '2'
  | 3 => '3'
  | 4 => '4'
  | 5 => '5'
  | 6 => '6'
  | 7 => '7'
  | 8 => '8'
  | 9 => '9'
  | _ => '0'

/-- Numeric value of a decimal digit character. -/
def digitVal (c : Char) : Nat := c.toNat - 48

/-- A calendar date, as parsed from `YYYY-MM-DD` / `DD/MM/YYYY` text. -/
structure Ymd where
  y : Nat
  m : Nat
  d : Nat
  deriving DecidableEq

/-- Gregorian leap-year rule (as used by Python `datetime.date`). -/
def isLeap (y : Nat) : Bool :=
  y % 4 == 0 && (y % 100 != 0 || y % 400 == 0)

/-- Days in a month of the Gregorian calendar (0 for an invalid month,
which is always guarded out by a month-range check first). -/
def daysInMonth (y m : Nat) : Nat :=
  match m with
  | 1 => 31
  | 2 => if isLeap y then 29 else 28
  | 3 => 31
  | 4 => 30
  | 5 => 31
  | 6 => 30
  | 7 => 31
  | 8 => 31
  | 9 => 30
  | 10 => 31
  | 11 => 30
  | 12 => 31
  | _ => 0

/-- Validity of a `Ymd` as a Python `datetime.date`
(year restricted to `MINYEAR = 1 .. MAXYEAR = 9999`). -/
def validYmdB (x : Ymd) : Bool :=
  1 ≤ x.y && x.y ≤ 9999 && 1 ≤ x.m && x.m ≤ 12 && 1 ≤ x.d && x.d ≤ daysInMonth x.y x.m

/-- Python `date.isoformat()`: zero-padded `YYYY-MM-DD`. -/
def renderIso (x : Ymd) : String :=
  ⟨[digitChar (x.y / 1000), digitChar (x.y / 100 % 10), digitChar (x.y / 10 % 10),
    digitChar (x.y % 10), '-', digitChar (x.m / 10), digitChar (x.m % 10), '-',
    digitChar (x.d / 10), digitChar (x.d % 10)]⟩

/-- The date constructor of the parsers: a `Ymd` when the components form a
valid calendar date, else `none` (a `ValueError` in Python). -/
def mkValidYmd (y m d : Nat) : Option Ymd :=
  if validYmdB ⟨y, m, d⟩ then some ⟨y, m, d⟩ else none

/-- Parse of a strict zero-padded `YYYY-MM-DD` char sequence, validating the
calendar date (models `datetime.strptime(s, "%Y-%m-%d")` /
`date.fromisoformat` on the zero-padded format the app produces and the
spec names; both raise, hence return `none` here, on an invalid date). -/
def parseIsoChars : List Char → Option Ymd
  | [y1, y2, y3, y4, s1, m1, m2, s2, d1, d2] =>
    if s1 == '-' && s2 == '-' && y1.isDigit && y2.isDigit && y3.isDigit && y4.isDigit
        && m1.isDigit && m2.isDigit && d1.isDigit && d2.isDigit then
      mkValidYmd (((digitVal y1 * 10 + digitVal y2) * 10 + digitVal y3) * 10 + digitVal y4)
        (digitVal m1 * 10 + digitVal m2) (digitVal d1 * 10 + digitVal d2)
    else none
  | _ => none

/-- Parse of a strict zero-padded `DD/MM/YYYY` char sequence
(models `datetime.strptime(s, "%d/%m/%Y")` on the spec's stated format). -/
def parseDMYChars : List Char → Option Ymd
  | [d1, d2, s1, m1, m2, s2, y1, y2, y3, y4] =>
    if s1 == '/' && s2 == '/' && y1.isDigit && y2.isDigit && y3.isDigit && y4.isDigit
        && m1.isDigit && m2.isDigit && d1.isDigit && d2.isDigit then
      mkValidYmd (((digitVal y1 * 10 + digitVal y2) * 10 + digitVal y3) * 10 + digitVal y4)
        (digitVal m1 * 10 + digitVal m2) (digitVal d1 * 10 + digitVal d2)
    else none
  | _ => none

/-- Strict `YYYY-MM-DD` parse on strings. -/
def parseIso (s : String) : Option Ymd := parseIsoChars s.toList

/-- Strict `DD/MM/YYYY` parse on strings. -/
def parseDMY (s : String) : Option Ymd := parseDMYChars s.toList

/-- Python `"/" in date_str`. -/
def containsSlash (s : String) : Bool := s.toList.contains '/'

/-- The date parse attempted by `normalize_date` (`app.py` lines 68-79):
`DD/MM/YYYY` when the input contains a slash, else `YYYY-MM-DD`. -/
def pyParseDate (s : String) : Option Ymd :=
  if containsSlash s then parseDMY s else parseIso s

/-- `normalize_date` (`app.py` lines 68-79): empty stays empty; a parseable
date is re-rendered as ISO `YYYY-MM-DD`; on parse failure the input is
returned unchanged. -/
def normalize_date (s : String) : String :=
  if s = "" then ""
  else
    match pyParseDate s with
    | some x => renderIso x
    | none => s

/-- Day count of a date since 0000-03-01 (standard civil-from-days scheme;
models the day arithmetic of Python `datetime.date`, where only
differences and offsets of this count are observable). -/
def daysFromCivil (x : Ymd) : Nat :=
  let y := if x.m ≤ 2 then x.y - 1 else x.y
  let era := y / 400
  let yoe := y % 400
  let mp := if x.m > 2 then x.m - 3 else x.m + 9
  let doy := (153 * mp + 2) / 5 + (x.d - 1)
  let doe := yoe * 365 + yoe / 4 - yoe / 100 + doy
  era * 146097 + doe

/-- Inverse of `daysFromCivil`: the calendar date of a day count. -/
def civilFromDays (z : Nat) : Ymd :=
  let era := z / 146097
  let doe := z % 146097
  let yoe := (doe - doe / 1460 + doe / 36524 - doe / 146096) / 365
  let y := yoe + era * 400
  let doy := doe - (365 * yoe + yoe / 4 - yoe / 100)
  let mp := (5 * doy + 2) / 153
  let d := doy - (153 * mp + 2) / 5 + 1
  let m := if mp < 10 then mp + 3 else mp - 9
  ⟨if m ≤ 2 then y + 1 else y, m, d⟩

/-- `d0 + datetime.timedelta(days = n)` for a valid date `d0`: Python raises
`OverflowError` (caught by the import code) when the result would pass
`date.max = 9999-12-31`, modelled by `none`. -/
def addDaysChecked (x : Ymd) (n : Nat) : Option Ymd :=
  let r := civilFromDays (daysFromCivil x + n)
  if r.y ≤ 9999 then some r else none

/-- A canonical Matter record: all fields of `FIELDS` plus `id`
(`app.py` lines 12-31). The two integral fields are kept as `Int`
exactly as the import pipeline coerces them. -/
structure Matter where
  ref : String := ""
  dateReceived : String := ""
  groupEntity : String := ""
  counterparty : String := ""
  branch : String := ""
  legal : String := ""
  internalDept : String := ""
  contractType : String := ""
  contractName : String := ""
  internalStakeholder : String := ""
  whoWith : String := ""
  stage : String := ""
  overallStatus : String := ""
  dateClosed : String := ""
  commentary : String := ""
  daysWithLegal : Int := 0
  totalCycleTime : Int := 0
  owner : String := ""
  id : String := ""
  deriving DecidableEq

/-- `is_closed` (`app.py` lines 171-182): case-insensitive, substring-based
recognition of closed synonyms in Overall Status. -/
def is_closed (m : Matter) : Bool :=
  let s := pyLower (pyTrim m.overallStatus)
  s == "closed" || strContains s "close" || strContains s "complete" ||
    strContains s "executed" || strContains s "signed" || s == "done"

/-- `month_key` (`app.py` lines 147-152): first 7 characters (`YYYY-MM`). -/
def month_key (s : String) : String := ⟨s.toList.take 7⟩

/-- `stage_bucket` (`app.py` lines 291-297). -/
def stage_bucket (stage : String) : String :=
  let s := pyLower stage
  if strContains s "received" || strContains s "review" || strContains s "draft" ||
      strContains s "comments" || strContains s "legal" then "Legal"
  else "Stakeholder/Other"

/-- The dedup key of the append-mode import (`app.py` line 775). -/
def matterTriple (m : Matter) : String × String × String :=
  (m.ref, m.counterparty, m.dateReceived)

/-- Append-mode merge (`app.py` lines 774-778): drop candidates whose
(Ref, Counterparty, Date Received) triple occurs among the existing
records, append the rest, report (final store, imported, skipped). -/
def mergeAppend (existing records : List Matter) : List Matter × Nat × Nat :=
  let seen := existing.map matterTriple
  let newItems := records.filter (fun r => !(seen.contains (matterTriple r)))
  (existing ++ newItems, newItems.length, records.length - newItems.length)

/-- Increment of one key of a `collections.Counter`, modelled as an
insertion-ordered association list. -/
def bumpCounter (k : String) : List (String × Nat) → List (String × Nat)
  | [] => [(k, 1)]
  | (k1, n) :: rest => if k = k1 then (k1, n + 1) :: rest else (k1, n) :: bumpCounter k rest

/-- `Counter.get(k, 0)`. -/
def counterGet (c : List (String × Nat)) (k : String) : Nat :=
  match c.find? (fun p => p.1 == k) with
  | some p => p.2
  | none => 0

/-- The keys of a counter. -/
def counterKeys (c : List (String × Nat)) : List String := c.map (fun p => p.1)

/-- Python `sorted(set(l))` for strings: the ascending list of the distinct
elements of `l`. -/
def sortedDedup (l : List String) : List String :=
  insertionSort strLe l.dedup

/-- One loop step of `compute_monthly_counts` (`app.py` lines 233-239):
skip records with an empty receipt month, else count the record as new
and, when `is_closed`, as closed, in its receipt month. -/
def monthlyStep (acc : List (String × Nat) × List (String × Nat)) (m : Matter) :
    List (String × Nat) × List (String × Nat) :=
  let mk := month_key m.dateReceived
  if mk = "" then acc
  else (bumpCounter mk acc.1, if is_closed m then bumpCounter mk acc.2 else acc.2)

/-- `compute_monthly_counts` (`app.py` lines 222-251): per receipt month,
new and closed counts over sorted months, plus the rolling running sum of
`new - closed`. -/
def compute_monthly_counts (matters : List Matter) :
    List String × List Nat × List Nat × List Int :=
  let c := matters.foldl monthlyStep ([], [])
  let months := sortedDedup (counterKeys c.1 ++ counterKeys c.2)
  let newVals := months.map (counterGet c.1)
  let closedVals := months.map (counterGet c.2)
  let rolling := (months.foldl
    (fun st mk =>
      (st.1 + (counterGet c.1 mk : Int) - (counterGet c.2 mk : Int),
       st.2 ++ [st.1 + (counterGet c.1 mk : Int) - (counterGet c.2 mk : Int)]))
    ((0 : Int), ([] : List Int))).2
  (months, newVals, closedVals, rolling)

/-- One row of the owner workload table (`app.py` lines 299-314). -/
structure OwnerRow where
  owner : String
  total : Nat
  withLegal : Nat
  withOthers : Nat
  deriving DecidableEq

/-- The grouping key of `compute_owner_table` (`app.py` line 303):
`(m.get("Owner") or m.get("Legal") or "Unassigned").strip() or "Unassigned"`. -/
def ownerKeyOf (m : Matter) : String :=
  let raw := if m.owner ≠ "" then m.owner else if m.legal ≠ "" then m.legal else "Unassigned"
  let k := pyTrim raw
  if k = "" then "Unassigned" else k

/-- Accumulate one open matter into the per-owner rows, kept in
first-encountered order like a Python `defaultdict`. -/
def ownerBump (key : String) (leg : Bool) : List OwnerRow → List OwnerRow
  | [] => [⟨key, 1, if leg then 1 else 0, if leg then 0 else 1⟩]
  | r :: rs =>
    if r.owner = key then
      ⟨r.owner, r.total + 1, r.withLegal + (if leg then 1 else 0),
        r.withOthers + (if leg then 0 else 1)⟩ :: rs
    else r :: ownerBump key leg rs

/-- The sort key of `compute_owner_table` (`app.py` line 313):
`(-total, owner.lower())`, ascending. -/
def rowLeB (a b : OwnerRow) : Bool :=
  b.total < a.total || (a.total == b.total && strLe (pyLower a.owner) (pyLower b.owner))

/-- `compute_owner_table` (`app.py` lines 299-314): group the open matters
by owner key, then sort by descending total with ties broken by
case-insensitive owner name (Python `list.sort` is stable, as is
`List.mergeSort`). -/
def compute_owner_table (matters : List Matter) : List OwnerRow :=
  let openMatters := matters.filter (fun m => pyLower m.overallStatus == "open")
  let rows := openMatters.foldl
    (fun acc m => ownerBump (ownerKeyOf m) (stage_bucket m.stage == "Legal") acc) []
  insertionSort rowLeB rows

/-- `HEADER_ALIASES` (`app.py` lines 603-624) as Python evaluates it.
The source dict literal lists the keys "Date Received", "Group Entity"
and "Overall Status" twice; a Python dict literal keeps the position of
the first occurrence of a key but the value of the last one, so the
effective alias lists of those three fields are the short ones given at
lines 621-623 (in particular "Received" is NOT an effective alias of
"Date Received"). -/
def HEADER_ALIASES : List (String × List String) :=
  [("Ref", ["Ref", "Reference", "Matter", "Title"]),
   ("Date Received", ["Date Received", "Date"]),
   ("Group Entity", ["Group Entity", "Group"]),
   ("Counterparty", ["Counterparty", "Other Party", "Vendor", "Supplier", "Customer"]),
   ("Branch", ["Branch", "Site", "Location"]),
   ("Legal", ["Legal", "Lawyer", "Handler"]),
   ("Internal Dept", ["Internal Dept", "Department", "Internal Department", "Dept"]),
   ("Contract Type", ["Contract Type", "Type"]),
   ("Contract Name", ["Contract Name", "Agreement", "Name"]),
   ("Internal Stakeholder", ["Internal Stakeholder", "Stakeholder", "Requester", "Requestor"]),
   ("Who With", ["Who With", "With", "Counterparty Contact"]),
   ("Stage", ["Stage", "Phase", "Step"]),
   ("Overall Status", ["Overall Status", "Status"]),
   ("Commentary", ["Commentary", "Notes", "Comments", "Summary"]),
   ("Days with Legal", ["Days with Legal", "Days_with_Legal", "Days With Legal"]),
   ("Total Cycle Time", ["Total Cycle Time", "Total_Cycle_Time", "Cycle Time"]),
   ("Owner", ["Owner", "Matter Owner", "Assigned To", "Assignee", "Legal"])]

/-- Keep only `[a-z0-9]` (the squash of `normalize_headers`, applied after
lowercasing). -/
def isSquashKeep (c : Char) : Bool :=
  ('a' ≤ c && c ≤ 'z') || ('0' ≤ c && c ≤ '9')

/-- `squash` inside `normalize_headers` (`app.py` line 640):
`re.sub(r"[^a-z0-9]+", "", str(s).lower())`. -/
def squash (s : String) : String := ⟨(pyLower s).toList.filter isSquashKeep⟩

/-- Whether the column `k` is already a key of the header mapping
(modelled as an insertion-ordered association list, like a Python dict). -/
def alContains (al : List (String × String)) (k : String) : Bool :=
  al.any (fun p => p.1 == k)

/-- `normalize_headers` (`app.py` lines 626-648): exact alias pass in
alias-table order over the columns in order, then the squashed fuzzy pass
over the still-unmapped columns. A repeated identical column label would
reassign the same key to the same value in Python, which leaves the dict
unchanged, so the second assignment is modelled as a no-op. -/
def normalize_headers (cols : List String) : List (String × String) :=
  let exact := HEADER_ALIASES.foldl
    (fun mp p => cols.foldl
      (fun mp2 c =>
        if (p.2.map pyLower).contains (pyLower (pyTrim c)) && !(alContains mp2 c) then
          mp2 ++ [(c, p.1)]
        else mp2) mp) []
  let unmapped := cols.filter (fun c => !(alContains exact c))
  unmapped.foldl
    (fun mp c =>
      match HEADER_ALIASES.find?
          (fun p => squash p.1 == squash c || p.2.any (fun a => squash a == squash c)) with
      | some p => if alContains mp c then mp else mp ++ [(c, p.1)]
      | none => mp) exact

/-- The derivation step of the record builder (`app.py` lines 736-742):
when Date Closed is empty, Date Received non-empty and Total Cycle Time
positive, set Date Closed to Date Received plus that many days; a parse
failure or an out-of-range result raises inside the `try` and is caught,
leaving the record as it was. -/
def deriveDateClosed (rec : Matter) : Matter :=
  if rec.dateClosed = "" && rec.dateReceived != "" && rec.totalCycleTime > 0 then
    match parseIso rec.dateReceived with
    | some d0 =>
      match addDaysChecked d0 rec.totalCycleTime.toNat with
      | some d1 => { rec with dateClosed := renderIso d1 }
      | none => rec
    | none => rec
  else rec

/-- An owner record (`users.json` entries: id, name, job_title, function). -/
structure User where
  id : String
  name : String
  jobTitle : String
  function : String
  deriving DecidableEq

/-- `find_user_by_name` (`app.py` lines 137-142): first user whose trimmed
lowercased name equals the trimmed lowercased query. -/
def find_user_by_name (users : List User) (name : String) : Option User :=
  users.find? (fun u => pyLower (pyTrim u.name) == pyLower (pyTrim name))

/-- The candidate owner names of an import batch (`app.py` lines 755-759,
762): distinct non-empty trimmed `Owner`-else-`Legal` values, iterated in
sorted order. -/
def collectOwnerNames (records : List Matter) : List String :=
  sortedDedup
    ((records.map (fun r => pyTrim (if r.owner ≠ "" then r.owner else r.legal))).filter
      (fun n => n ≠ ""))

/-- Owner auto-provisioning (`app.py` lines 762-765): walk the sorted name
list, appending a fresh owner (id drawn from the generator `gen` at the
running index `k`) for every name that `find_user_by_name` cannot find. -/
def provisionOwners (gen : Nat → String) (k : Nat) (users : List User) :
    List String → List User
  | [] => users
  | n :: ns =>
    match find_user_by_name users n with
    | some _ => provisionOwners gen k users ns
    | none => provisionOwners gen (k + 1) (users ++ [⟨gen k, n, "", ""⟩]) ns

/-- The three outcomes of the owner deletion route. -/
inductive DeleteOutcome where
  | notFound
  | stillInUse
  | deleted
  deriving DecidableEq

/-- `owners_delete` (`app.py` lines 825-841): refuse when any matter's
Owner matches the owner's name after trim+lowercase, else remove the
users with that id. The matter store is never written. -/
def owners_delete (users : List User) (matters : List Matter) (uid : String) :
    DeleteOutcome × List User × List Matter :=
  match users.find? (fun u => u.id == uid) with
  | none => (DeleteOutcome.notFound, users, matters)
  | some user =>
    if matters.any (fun m => pyLower (pyTrim m.owner) == pyLower (pyTrim user.name)) then
      (DeleteOutcome.stillInUse, users, matters)
    else
      (DeleteOutcome.deleted, users.filter (fun u => u.id != uid), matters)

/-- A matter as stored on disk: a JSON object, modelled as an
insertion-ordered association list of string fields (the app writes
string values for every field it defaults or assigns). -/
abbrev RawMatter := List (String × String)

/-- `m.get(k)`: the value of the first (hence only, for dict data) entry
with key `k`. -/
def alGet (m : RawMatter) (k : String) : Option String :=
  (m.find? (fun p => p.1 == k)).map (fun p => p.2)

/-- `k in m`. -/
def alHas (m : RawMatter) (k : String) : Bool := m.any (fun p => p.1 == k)

/-- `m[k] = v`: update in place when the key exists, else append
(Python dict assignment). -/
def alSet (m : RawMatter) (k v : String) : RawMatter :=
  if alHas m k then m.map (fun p => if p.1 == k then (k, v) else p) else m ++ [(k, v)]

/-- `m.pop(k)`. -/
def alRemove (m : RawMatter) (k : String) : RawMatter := m.filter (fun p => p.1 != k)

/-- The canonical field list `FIELDS` (`app.py` lines 12-31). -/
def FIELDS : List String :=
  ["Ref", "Date Received", "Group Entity", "Counterparty", "Branch", "Legal",
   "Internal Dept", "Contract Type", "Contract Name", "Internal Stakeholder",
   "Who With", "Stage", "Overall Status", "Date Closed", "Commentary",
   "Days with Legal", "Total Cycle Time", "Owner"]

/-- The legacy key renames applied on load (`app.py` lines 88-92). -/
def LEGACY_TO_CANON : List (String × String) :=
  [("Date", "Date Received"), ("Group", "Group Entity"), ("Status", "Overall Status")]

/-- `canonicalize_matter_keys` (`app.py` lines 93-97): move each legacy key
to its canonical name when the canonical one is absent (`m.pop` removes
the old entry; the assignment appends the new key). -/
def canonicalize_matter_keys (m : RawMatter) : RawMatter :=
  LEGACY_TO_CANON.foldl
    (fun m p =>
      if alHas m p.1 && !(alHas m p.2) then
        alSet (alRemove m p.1) p.2 ((alGet m p.1).getD "")
      else m) m

/-- Python truthiness of `m.get("id")`: present and non-empty. -/
def idTruthy (m : RawMatter) : Bool :=
  match alGet m "id" with
  | some v => v != ""
  | none => false

/-- The field-defaulting loop of `get_matters` (`app.py` lines 105-107):
give every absent canonical field the empty string. -/
def ensureFields (m : RawMatter) : RawMatter :=
  FIELDS.foldl (fun m f => if alHas m f then m else m ++ [(f, "")]) m

/-- Per-record work of `get_matters` (`app.py` lines 100-107): legacy key
renames, id assignment for records without a truthy id (drawing the fresh
id from `gen` at the running index `k`), field defaulting. Returns the
record, the next generator index and whether an id was assigned. -/
def loadOne (gen : Nat → String) (k : Nat) (m : RawMatter) : RawMatter × Nat × Bool :=
  let m1 := canonicalize_matter_keys m
  let withId := if idTruthy m1 then (m1, k, false) else (alSet m1 "id" (gen k), k + 1, true)
  (ensureFields withId.1, withId.2.1, withId.2.2)

/-- `get_matters` (`app.py` lines 84-113) over the decoded store file:
processes every record with `loadOne`; the final flag records whether any
id was generated, in which case the code writes the returned list back to
disk unchanged (`write_matters(data)`), keeping generated ids stable. -/
def get_matters (gen : Nat → String) (k : Nat) : List RawMatter → List RawMatter × Nat × Bool
  | [] => ([], k, false)
  | m :: ms =>
    let one := loadOne gen k m
    let rest := get_matters gen one.2.1 ms
    (one.1 :: rest.1, rest.2.1, one.2.2 || rest.2.2)

/-- The ids of a loaded store. -/
def loadedIds (ms : List RawMatter) : List String := ms.map (fun m => (alGet m "id").getD "")

/-! ## Order and sorting lemmas -/

theorem char_eq_of_toNat_eq {a b : Char} (h : a.toNat = b.toNat) : a = b :=
  Char.ext (UInt32.toNat.inj h)

theorem charListLt_trans (a : List Char) : ∀ (b c : List Char),
    charListLt a b = true → charListLt b c = true → charListLt a c = true := by
  induction a with
  | nil =>
    intro b c hab hbc
    cases b with
    | nil => simp [charListLt] at hab
    | cons y ys =>
      cases c with
      | nil => simp [charListLt] at hbc
      | cons z zs => simp [charListLt]
  | cons x xs ih =>
    intro b c hab hbc
    cases b with
    | nil => simp [charListLt] at hab
    | cons y ys =>
      cases c with
      | nil => simp [charListLt] at hbc
      | cons z zs =>
        simp only [charListLt] at hab hbc ⊢
        split_ifs at hab hbc ⊢ <;> first
          | rfl
          | omega
          | exact ih ys zs hab hbc

theorem charListLt_asymm (a : List Char) : ∀ (b : List Char),
    charListLt a b = true → charListLt b a = false := by
  induction a with
  | nil =>
    intro b hab
    cases b with
    | nil => simp [charListLt] at hab
    | cons y ys => simp [charListLt]
  | cons x xs ih =>
    intro b hab
    cases b with
    | nil => simp [charListLt] at hab
    | cons y ys =>
      simp only [charListLt] at hab ⊢
      split_ifs at hab ⊢ <;> first
        | rfl
        | omega
        | exact ih ys hab

theorem charListLt_irrefl (a : List Char) : charListLt a a = false := by
  cases hc : charListLt a a with
  | false => rfl
  | true =>
    have h2 := charListLt_asymm a a hc
    rw [hc] at h2
    exact absurd h2 (by decide)

theorem charListLt_trichotomy (a : List Char) : ∀ (b : List Char),
    charListLt a b = true ∨ a = b ∨ charListLt b a = true := by
  induction a with
  | nil =>
    intro b
    cases b with
    | nil => right; left; rfl
    | cons y ys => left; simp [charListLt]
  | cons x xs ih =>
    intro b
    cases b with
    | nil => right; right; simp [charListLt]
    | cons y ys =>
      by_cases hlt : x.toNat < y.toNat
      · left; simp [charListLt, hlt]
      · by_cases heq : x.toNat = y.toNat
        · have hxy : x = y := char_eq_of_toNat_eq heq
          rcases ih ys with h | h | h
          · left
            simp [charListLt, hlt, heq, h]
          · right; left; rw [hxy, h]
          · right; right
            have hyx : ¬ y.toNat < x.toNat := by omega
            simp [charListLt, hyx, heq.symm, h]
        · right; right
          have hyx : y.toNat < x.toNat := by omega
          simp [charListLt, hyx]

theorem strLe_trans (a b c : String) (hab : strLe a b = true) (hbc : strLe b c = true) :
    strLe a c = true := by
  simp only [strLe, strLt, Bool.not_eq_true'] at hab hbc ⊢
  by_contra hcon
  rw [Bool.not_eq_false] at hcon
  rcases charListLt_trichotomy a.toList b.toList with h1 | h1 | h1
  · have h2 := charListLt_trans c.toList a.toList b.toList hcon h1
    rw [h2] at hbc
    exact absurd hbc (by decide)
  · rw [h1] at hcon
    rw [hcon] at hbc
    exact absurd hbc (by decide)
  · rw [h1] at hab
    exact absurd hab (by decide)

theorem strLe_total (a b : String) : strLe a b = true ∨ strLe b a = true := by
  simp only [strLe, strLt, Bool.not_eq_true']
  rcases charListLt_trichotomy a.toList b.toList with h | h | h
  · left; exact charListLt_asymm a.toList b.toList h
  · left
    rw [← h]
    exact charListLt_irrefl a.toList
  · right; exact charListLt_asymm b.toList a.toList h

theorem string_eq_of_toList_eq {a b : String} (h : a.toList = b.toList) : a = b := by
  cases a with
  | mk da =>
    cases b with
    | mk db =>
      have h2 : da = db := h
      rw [h2]

theorem strLt_of_strLe_of_ne {a b : String} (hle : strLe a b = true) (hne : a ≠ b) :
    strLt a b = true := by
  simp only [strLe, strLt, Bool.not_eq_true'] at hle ⊢
  rcases charListLt_trichotomy a.toList b.toList with h | h | h
  · exact h
  · exact absurd (string_eq_of_toList_eq h) hne
  · rw [h] at hle
    exact absurd hle (by decide)

theorem mem_insertLe (le : α → α → Bool) (x : α) (l : List α) (a : α) :
    a ∈ insertLe le x l ↔ a = x ∨ a ∈ l := by
  induction l with
  | nil => simp [insertLe]
  | cons y ys ih =>
    simp only [insertLe]
    split
    · simp [or_comm, or_assoc, or_left_comm]
    · simp only [List.mem_cons, ih]
      tauto

theorem insertLe_perm (le : α → α → Bool) (x : α) (l : List α) :
    (insertLe le x l).Perm (x :: l) := by
  induction l with
  | nil => simp [insertLe]
  | cons y ys ih =>
    simp only [insertLe]
    split
    · exact List.Perm.refl _
    · exact (List.Perm.cons y ih).trans (List.Perm.swap x y ys)

theorem pairwise_insertLe (le : α → α → Bool)
    (htrans : ∀ a b c, le a b = true → le b c = true → le a c = true)
    (htot : ∀ a b, le a b = true ∨ le b a = true)
    (x : α) (l : List α) (h : l.Pairwise (fun a b => le a b = true)) :
    (insertLe le x l).Pairwise (fun a b => le a b = true) := by
  induction l with
  | nil => simp [insertLe]
  | cons y ys ih =>
    rcases List.pairwise_cons.mp h with ⟨hy, hys⟩
    simp only [insertLe]
    split
    · rename_i hxy
      refine List.pairwise_cons.mpr ⟨?_, h⟩
      intro z hz
      rcases List.mem_cons.mp hz with rfl | hz
      · exact hxy
      · exact htrans x y z hxy (hy z hz)
    · rename_i hxy
      have hyx : le y x = true := by
        rcases htot x y with h1 | h1
        · exact absurd h1 hxy
        · exact h1
      refine List.pairwise_cons.mpr ⟨?_, ih hys⟩
      intro z hz
      rcases (mem_insertLe le x ys z).mp hz with rfl | hz
      · exact hyx
      · exact hy z hz

theorem insertionSort_perm (le : α → α → Bool) (l : List α) :
    (insertionSort le l).Perm l := by
  induction l with
  | nil => exact List.Perm.refl _
  | cons x xs ih =>
    exact (insertLe_perm le x (insertionSort le xs)).trans (List.Perm.cons x ih)

theorem pairwise_insertionSort (le : α → α → Bool)
    (htrans : ∀ a b c, le a b = true → le b c = true → le a c = true)
    (htot : ∀ a b, le a b = true ∨ le b a = true)
    (l : List α) :
    (insertionSort le l).Pairwise (fun a b => le a b = true) := by
  induction l with
  | nil => simp [insertionSort]
  | cons x xs ih => exact pairwise_insertLe le htrans htot x _ ih

theorem sortedDedup_pairwise_le (l : List String) :
    (sortedDedup l).Pairwise (fun a b => strLe a b = true) :=
  pairwise_insertionSort strLe strLe_trans strLe_total l.dedup

theorem sortedDedup_nodup (l : List String) : (sortedDedup l).Nodup :=
  (insertionSort_perm strLe l.dedup).nodup_iff.mpr l.nodup_dedup

theorem mem_sortedDedup (l : List String) (a : String) : a ∈ sortedDedup l ↔ a ∈ l := by
  rw [sortedDedup, (insertionSort_perm strLe l.dedup).mem_iff, List.mem_dedup]

/-- `sortedDedup` is strictly ascending in Python's string order. -/
theorem sortedDedup_sorted_lt (l : List String) :
    (sortedDedup l).Pairwise (fun a b => strLt a b = true) := by
  have h := (sortedDedup_pairwise_le l).and (sortedDedup_nodup l)
  exact h.imp (fun hab => strLt_of_strLe_of_ne hab.1 hab.2)

/-! ## Theorems -/

/-- The claim's drop condition for append-mode import: some existing record
has the same (Ref, Counterparty, Date Received) triple, component by
component, under string equality. -/
def tripleMatchesExisting (existing : List Matter) (r : Matter) : Prop :=
  ∃ e ∈ existing,
    e.ref = r.ref ∧ e.counterparty = r.counterparty ∧ e.dateReceived = r.dateReceived

instance (existing : List Matter) (r : Matter) : Decidable (tripleMatchesExisting existing r) :=
  inferInstanceAs (Decidable (∃ e ∈ existing, _ ∧ _ ∧ _))

/-- The candidate filter of `mergeAppend` agrees pointwise with the claim's
drop condition. -/
theorem contains_triple_iff (existing : List Matter) (r : Matter) :
    (existing.map matterTriple).contains (matterTriple r) =
      decide (tripleMatchesExisting existing r) := by
  simp only [List.contains, List.elem_eq_mem, List.mem_map, tripleMatchesExisting,
    matterTriple, decide_eq_decide]
  constructor
  · rintro ⟨e, he, h3⟩
    exact ⟨e, he, congrArg Prod.fst h3,
      congrArg Prod.fst (congrArg Prod.snd h3), congrArg Prod.snd (congrArg Prod.snd h3)⟩
  · rintro ⟨e, he, h1, h2, h3⟩
    exact ⟨e, he, by rw [h1, h2, h3]⟩

/-- Running cumulative sums starting from `acc`. -/
def cumsumFrom (acc : Int) : List Int → List Int
  | [] => []
  | x :: xs => (acc + x) :: cumsumFrom (acc + x) xs

/-- The running cumulative sum series of a list. -/
def cumsum (xs : List Int) : List Int := cumsumFrom 0 xs

/-- The new-contracts component of one `compute_monthly_counts` loop step. -/
def newStep (c : List (String × Nat)) (m : Matter) : List (String × Nat) :=
  if month_key m.dateReceived = "" then c else bumpCounter (month_key m.dateReceived) c

/-- The closed-contracts component of one `compute_monthly_counts` loop step. -/
def closedStep (c : List (String × Nat)) (m : Matter) : List (String × Nat) :=
  if month_key m.dateReceived = "" then c
  else if is_closed m then bumpCounter (month_key m.dateReceived) c else c

theorem monthlyStep_eq (a b : List (String × Nat)) (m : Matter) :
    monthlyStep (a, b) m = (newStep a m, closedStep b m) := by
  simp only [monthlyStep, newStep, closedStep]
  split_ifs <;> rfl

theorem foldl_monthlyStep_fst (ms : List Matter) : ∀ (a b : List (String × Nat)),
    (ms.foldl monthlyStep (a, b)).1 = ms.foldl newStep a := by
  induction ms with
  | nil => intro a b; rfl
  | cons m ms ih =>
    intro a b
    simp only [List.foldl_cons, monthlyStep_eq]
    exact ih _ _

theorem foldl_monthlyStep_snd (ms : List Matter) : ∀ (a b : List (String × Nat)),
    (ms.foldl monthlyStep (a, b)).2 = ms.foldl closedStep b := by
  induction ms with
  | nil => intro a b; rfl
  | cons m ms ih =>
    intro a b
    simp only [List.foldl_cons, monthlyStep_eq]
    exact ih _ _

theorem counterGet_cons (a : String) (b : Nat) (c : List (String × Nat)) (k : String) :
    counterGet ((a, b) :: c) k = if a = k then b else counterGet c k := by
  by_cases h : a = k <;> simp [counterGet, List.find?_cons, h]

theorem counterGet_bumpCounter (k k1 : String) (c : List (String × Nat)) :
    counterGet (bumpCounter k c) k1 = counterGet c k1 + (if k1 = k then 1 else 0) := by
  induction c with
  | nil =>
    by_cases h : k1 = k
    · subst h
      simp [bumpCounter, counterGet_cons, counterGet]
    · have h2 : ¬ k = k1 := fun he => h he.symm
      simp [bumpCounter, counterGet_cons, counterGet, h, h2]
  | cons p c ih =>
    obtain ⟨k2, n⟩ := p
    by_cases h2 : k = k2
    · subst h2
      by_cases h1 : k1 = k
      · subst h1
        simp [bumpCounter, counterGet_cons]
      · have h3 : ¬ k = k1 := fun he => h1 he.symm
        simp [bumpCounter, counterGet_cons, h1, h3]
    · by_cases h1 : k2 = k1
      · subst h1
        have h3 : ¬ k2 = k := fun he => h2 he.symm
        simp [bumpCounter, h2, counterGet_cons, h3]
      · simp [bumpCounter, h2, counterGet_cons, h1, ih]

theorem counterGet_foldl_newStep (ms : List Matter) (k : String) (hk : k ≠ "") :
    ∀ c0 : List (String × Nat),
      counterGet (ms.foldl newStep c0) k =
        counterGet c0 k + ms.countP (fun m => month_key m.dateReceived == k) := by
  induction ms with
  | nil => intro c0; simp
  | cons m ms ih =>
    intro c0
    simp only [List.foldl_cons, List.countP_cons]
    rw [ih]
    by_cases h : month_key m.dateReceived = ""
    · have hne : ¬ (month_key m.dateReceived == k) = true := by
        simp only [beq_iff_eq, h]
        exact fun h2 => hk h2.symm
      simp only [newStep, if_pos h]
      simp [hne]
    · by_cases h2 : month_key m.dateReceived = k
      · simp only [newStep, if_neg h]
        simp [counterGet_bumpCounter, h2]
        omega
      · have hne : ¬ (month_key m.dateReceived == k) = true := by simp [h2]
        have h3 : ¬ k = month_key m.dateReceived := fun he => h2 he.symm
        simp only [newStep, if_neg h]
        simp [counterGet_bumpCounter, hne, h3]

theorem counterGet_foldl_closedStep (ms : List Matter) (k : String) (hk : k ≠ "") :
    ∀ c0 : List (String × Nat),
      counterGet (ms.foldl closedStep c0) k =
        counterGet c0 k +
          ms.countP (fun m => month_key m.dateReceived == k && is_closed m) := by
  induction ms with
  | nil => intro c0; simp
  | cons m ms ih =>
    intro c0
    simp only [List.foldl_cons, List.countP_cons]
    rw [ih]
    by_cases h : month_key m.dateReceived = ""
    · have hne : ¬ (month_key m.dateReceived == k && is_closed m) = true := by
        simp only [beq_iff_eq, h, Bool.and_eq_true]
        exact fun h2 => hk h2.1.symm
      simp only [closedStep, if_pos h]
      simp [hne]
    · by_cases hc : is_closed m
      · by_cases h2 : month_key m.dateReceived = k
        · simp only [closedStep, if_neg h, if_pos hc]
          simp [counterGet_bumpCounter, h2, hc]
          omega
        · have hne : ¬ (month_key m.dateReceived == k && is_closed m) = true := by
            simp [h2]
          have h3 : ¬ k = month_key m.dateReceived := fun he => h2 he.symm
          simp only [closedStep, if_neg h, if_pos hc]
          simp [counterGet_bumpCounter, hne, h3]
      · have hne : ¬ (month_key m.dateReceived == k && is_closed m) = true := by
          simp [hc]
        simp only [closedStep, if_neg h, if_neg hc]
        simp [hne]

theorem mem_counterKeys_bumpCounter (k x : String) (c : List (String × Nat)) :
    x ∈ counterKeys (bumpCounter k c) ↔ x = k ∨ x ∈ counterKeys c := by
  induction c with
  | nil => simp [bumpCounter, counterKeys]
  | cons p c ih =>
    obtain ⟨k2, n⟩ := p
    by_cases h : k = k2
    · subst h
      have he : bumpCounter k ((k, n) :: c) = (k, n + 1) :: c := by
        simp [bumpCounter]
      rw [he]
      simp only [counterKeys, List.map_cons, List.mem_cons]
      tauto
    · have he : bumpCounter k ((k2, n) :: c) = (k2, n) :: bumpCounter k c := by
        simp [bumpCounter, h]
      rw [he]
      simp only [counterKeys, List.map_cons, List.mem_cons] at ih ⊢
      rw [ih]
      tauto

theorem mem_counterKeys_foldl_newStep (ms : List Matter) (x : String) :
    ∀ c0 : List (String × Nat),
      x ∈ counterKeys (ms.foldl newStep c0) ↔
        x ∈ counterKeys c0 ∨
          ∃ m ∈ ms, month_key m.dateReceived ≠ "" ∧ month_key m.dateReceived = x := by
  induction ms with
  | nil => intro c0; simp
  | cons m ms ih =>
    intro c0
    simp only [List.foldl_cons, List.mem_cons]
    rw [ih]
    by_cases h : month_key m.dateReceived = ""
    · simp only [newStep, if_pos h]
      constructor
      · rintro (h1 | ⟨m1, hm1, hne, hx⟩)
        · exact Or.inl h1
        · exact Or.inr ⟨m1, Or.inr hm1, hne, hx⟩
      · rintro (h1 | ⟨m1, hm1 | hm1, hne, hx⟩)
        · exact Or.inl h1
        · rw [hm1] at hne; exact absurd h hne
        · exact Or.inr ⟨m1, hm1, hne, hx⟩
    · simp only [newStep, if_neg h]
      constructor
      · rintro (h1 | ⟨m1, hm1, hne, hx⟩)
        · rcases (mem_counterKeys_bumpCounter _ _ _).mp h1 with h2 | h2
          · exact Or.inr ⟨m, Or.inl rfl, h, h2.symm⟩
          · exact Or.inl h2
        · exact Or.inr ⟨m1, Or.inr hm1, hne, hx⟩
      · rintro (h1 | ⟨m1, hm1 | hm1, hne, hx⟩)
        · exact Or.inl ((mem_counterKeys_bumpCounter _ _ _).mpr (Or.inr h1))
        · subst hm1
          exact Or.inl ((mem_counterKeys_bumpCounter _ _ _).mpr (Or.inl hx.symm))
        · exact Or.inr ⟨m1, hm1, hne, hx⟩

theorem mem_counterKeys_foldl_closedStep (ms : List Matter) (x : String) :
    ∀ c0 : List (String × Nat),
      x ∈ counterKeys (ms.foldl closedStep c0) →
        x ∈ counterKeys c0 ∨
          ∃ m ∈ ms, month_key m.dateReceived ≠ "" ∧ month_key m.dateReceived = x := by
  induction ms with
  | nil => intro c0 h; exact Or.inl h
  | cons m ms ih =>
    intro c0 h1
    simp only [List.foldl_cons] at h1
    rcases ih _ h1 with h2 | ⟨m1, hm1, hne, hx⟩
    · by_cases h : month_key m.dateReceived = ""
      · rw [closedStep, if_pos h] at h2
        exact Or.inl h2
      · rw [closedStep, if_neg h] at h2
        by_cases hc : is_closed m
        · rw [if_pos hc] at h2
          rcases (mem_counterKeys_bumpCounter _ _ _).mp h2 with h3 | h3
          · exact Or.inr ⟨m, List.mem_cons_self m ms, h, h3.symm⟩
          · exact Or.inl h3
        · rw [if_neg hc] at h2
          exact Or.inl h2
    · exact Or.inr ⟨m1, List.mem_cons_of_mem m hm1, hne, hx⟩

theorem foldl_rolling (g h : String → Int) (l : List String) :
    ∀ (a : Int) (acc : List Int),
      (l.foldl (fun st mk => (st.1 + g mk - h mk, st.2 ++ [st.1 + g mk - h mk])) (a, acc)).2 =
        acc ++ cumsumFrom a (l.map (fun mk => g mk - h mk)) := by
  induction l with
  | nil => intro a acc; simp [cumsumFrom]
  | cons x xs ih =>
    intro a acc
    simp only [List.foldl_cons, List.map_cons, cumsumFrom]
    rw [ih]
    have h1 : a + g x - h x = a + (g x - h x) := by ring
    rw [h1, List.append_assoc, List.singleton_append]

theorem zipWith_self_map {α β : Type} (f : α → α → β) (l : List α) :
    List.zipWith f l l = l.map (fun x => f x x) := by
  induction l with
  | nil => rfl
  | cons x xs ih => simp [ih]

theorem daysInMonth_le_31 (y m : Nat) : daysInMonth y m ≤ 31 := by
  unfold daysInMonth
  split <;> first
    | omega
    | (split <;> omega)

theorem validYmdB_elim {x : Ymd} (h : validYmdB x = true) :
    1 ≤ x.y ∧ x.y ≤ 9999 ∧ 1 ≤ x.m ∧ x.m ≤ 12 ∧ 1 ≤ x.d ∧ x.d ≤ 31 := by
  simp only [validYmdB, Bool.and_eq_true, decide_eq_true_eq] at h
  have := daysInMonth_le_31 x.y x.m
  omega

theorem digitChar_isDigit {n : Nat} (h : n < 10) : (digitChar n).isDigit = true := by
  interval_cases n <;> decide

theorem digitVal_digitChar {n : Nat} (h : n < 10) : digitVal (digitChar n) = n := by
  interval_cases n <;> decide

theorem digitChar_ne_slash {n : Nat} (h : n < 10) : '/' ≠ digitChar n := by
  interval_cases n <;> decide

theorem containsSlash_renderIso (x : Ymd) (h : validYmdB x = true) :
    containsSlash (renderIso x) = false := by
  obtain ⟨hy1, hy2, hm1, hm2, hd1, hd2⟩ := validYmdB_elim h
  obtain ⟨y, m, d⟩ := x
  simp only at hy1 hy2 hm1 hm2 hd1 hd2
  have b1 : y / 1000 < 10 := by omega
  have b2 : y / 100 % 10 < 10 := by omega
  have b3 : y / 10 % 10 < 10 := by omega
  have b4 : y % 10 < 10 := by omega
  have b5 : m / 10 < 10 := by omega
  have b6 : m % 10 < 10 := by omega
  have b7 : d / 10 < 10 := by omega
  have b8 : d % 10 < 10 := by omega
  show ([digitChar (y / 1000), digitChar (y / 100 % 10), digitChar (y / 10 % 10),
      digitChar (y % 10), '-', digitChar (m / 10), digitChar (m % 10), '-',
      digitChar (d / 10), digitChar (d % 10)] : List Char).contains '/' = false
  simp only [List.contains, List.elem_eq_mem, List.mem_cons, List.not_mem_nil, or_false,
    decide_eq_false_iff_not]
  push_neg
  exact ⟨digitChar_ne_slash b1, digitChar_ne_slash b2, digitChar_ne_slash b3,
    digitChar_ne_slash b4, by decide, digitChar_ne_slash b5, digitChar_ne_slash b6,
    by decide, digitChar_ne_slash b7, digitChar_ne_slash b8⟩

theorem mkValidYmd_of_valid {y m d : Nat} (h : validYmdB ⟨y, m, d⟩ = true) :
    mkValidYmd y m d = some ⟨y, m, d⟩ := by
  unfold mkValidYmd
  rw [if_pos h]

theorem mkValidYmd_valid {y m d : Nat} {x : Ymd} (h : mkValidYmd y m d = some x) :
    validYmdB x = true := by
  unfold mkValidYmd at h
  split_ifs at h with h1
  · cases h
    exact h1

theorem parseIso_renderIso (x : Ymd) (h : validYmdB x = true) :
    parseIso (renderIso x) = some x := by
  obtain ⟨hy1, hy2, hm1, hm2, hd1, hd2⟩ := validYmdB_elim h
  obtain ⟨y, m, d⟩ := x
  simp only at hy1 hy2 hm1 hm2 hd1 hd2
  have b1 : y / 1000 < 10 := by omega
  have b2 : y / 100 % 10 < 10 := by omega
  have b3 : y / 10 % 10 < 10 := by omega
  have b4 : y % 10 < 10 := by omega
  have b5 : m / 10 < 10 := by omega
  have b6 : m % 10 < 10 := by omega
  have b7 : d / 10 < 10 := by omega
  have b8 : d % 10 < 10 := by omega
  show parseIsoChars [digitChar (y / 1000), digitChar (y / 100 % 10), digitChar (y / 10 % 10),
      digitChar (y % 10), '-', digitChar (m / 10), digitChar (m % 10), '-',
      digitChar (d / 10), digitChar (d % 10)] = some ⟨y, m, d⟩
  have e1 : ((digitVal (digitChar (y / 1000)) * 10 + digitVal (digitChar (y / 100 % 10))) * 10 +
      digitVal (digitChar (y / 10 % 10))) * 10 + digitVal (digitChar (y % 10)) = y := by
    rw [digitVal_digitChar b1, digitVal_digitChar b2, digitVal_digitChar b3,
      digitVal_digitChar b4]
    omega
  have e2 : digitVal (digitChar (m / 10)) * 10 + digitVal (digitChar (m % 10)) = m := by
    rw [digitVal_digitChar b5, digitVal_digitChar b6]
    omega
  have e3 : digitVal (digitChar (d / 10)) * 10 + digitVal (digitChar (d % 10)) = d := by
    rw [digitVal_digitChar b7, digitVal_digitChar b8]
    omega
  simp only [parseIsoChars, digitChar_isDigit b1, digitChar_isDigit b2, digitChar_isDigit b3,
    digitChar_isDigit b4, digitChar_isDigit b5, digitChar_isDigit b6, digitChar_isDigit b7,
    digitChar_isDigit b8, e1, e2, e3, beq_self_eq_true, Bool.and_self, Bool.true_and,
    Bool.and_true, if_true]
  exact mkValidYmd_of_valid h

theorem parseIsoChars_valid : ∀ (l : List Char) (x : Ymd),
    parseIsoChars l = some x → validYmdB x = true := by
  intro l x h
  unfold parseIsoChars at h
  split at h
  · split_ifs at h with h1
    exact mkValidYmd_valid h
  · exact absurd h (by simp)

theorem parseDMYChars_valid : ∀ (l : List Char) (x : Ymd),
    parseDMYChars l = some x → validYmdB x = true := by
  intro l x h
  unfold parseDMYChars at h
  split at h
  · split_ifs at h with h1
    exact mkValidYmd_valid h
  · exact absurd h (by simp)

theorem pyParseDate_valid {s : String} {x : Ymd} (h : pyParseDate s = some x) :
    validYmdB x = true := by
  unfold pyParseDate at h
  split at h
  · exact parseDMYChars_valid s.toList x h
  · exact parseIsoChars_valid s.toList x h

theorem renderIso_ne_empty (x : Ymd) : renderIso x ≠ "" := by
  intro h
  have h2 := congrArg String.toList h
  simp only [renderIso] at h2
  exact absurd h2 (by simp [String.toList])

/-- C8: parseDate (`normalize_date`) is idempotent on valid inputs: for
every string in valid `DD/MM/YYYY` or `YYYY-MM-DD` form (`pyParseDate`
succeeds, taking the branch the code chooses by the presence of a slash),
the result is the zero-padded ISO rendering of the parsed date, and
normalizing again returns the same string. -/
theorem c8_parse_date_idempotent (s : String) (x : Ymd) (h : pyParseDate s = some x) :
    normalize_date s = renderIso x ∧ normalize_date (normalize_date s) = normalize_date s := by
  have hv : validYmdB x = true := pyParseDate_valid h
  have hs : s ≠ "" := by
    intro he
    rw [he] at h
    have h0 : pyParseDate "" = (none : Option Ymd) := by decide
    rw [h0] at h
    exact Option.noConfusion h
  have h1 : normalize_date s = renderIso x := by
    rw [normalize_date, if_neg hs, h]
  refine ⟨h1, ?_⟩
  rw [h1]
  have h2 : pyParseDate (renderIso x) = some x := by
    unfold pyParseDate
    rw [containsSlash_renderIso x hv]
    simp only [Bool.false_eq_true, if_false]
    exact parseIso_renderIso x hv
  rw [normalize_date, if_neg (renderIso_ne_empty x), h2]

/-- C8 witness: the valid input "31/12/2024" parses, normalizes to
"2024-12-31", and renormalizing is the identity. -/
theorem c8_parse_date_idempotent_witness :
    pyParseDate "31/12/2024" = some ⟨2024, 12, 31⟩
      ∧ normalize_date "31/12/2024" = "2024-12-31"
      ∧ normalize_date (normalize_date "31/12/2024") = normalize_date "31/12/2024" := by
  have h := c8_parse_date_idempotent "31/12/2024" ⟨2024, 12, 31⟩ (by decide)
  refine ⟨by decide, ?_, h.2⟩
  rw [h.1]
  decide

/-- C4 counterexample: the claim as stated fails at Date Received
"9999-12-31" with Total Cycle Time 1 and empty Date Closed: all of the
claim's conditions hold, yet the code leaves Date Closed empty, because
`date + timedelta` raises OverflowError past year 9999 and the exception
handler keeps the record unchanged. -/
theorem c4_overflow_counterexample :
    ({ dateReceived := "9999-12-31", dateClosed := "", totalCycleTime := 1 } : Matter).dateClosed
        = ""
      ∧ (0 : Int) <
          ({ dateReceived := "9999-12-31", dateClosed := "", totalCycleTime := 1 } :
            Matter).totalCycleTime
      ∧ parseIso "9999-12-31" = some ⟨9999, 12, 31⟩
      ∧ deriveDateClosed
            { dateReceived := "9999-12-31", dateClosed := "", totalCycleTime := 1 } =
          { dateReceived := "9999-12-31", dateClosed := "", totalCycleTime := 1 } :=
  ⟨rfl, by decide, by decide, by decide⟩

/-- C4 (amended): for every record, if Date Closed is empty, Date Received
parses as an ISO date, Total Cycle Time is positive, and the sum stays
within year 9999, then Date Closed is set to Date Received plus Total
Cycle Time calendar days (ISO-rendered, all other fields unchanged);
in every other case — condition false, unparseable Date Received, or
date-overflow — the record is left exactly as it was. -/
theorem c4_derive_date_closed_amended (rec : Matter) :
    (∀ d0 : Ymd, rec.dateClosed = "" → parseIso rec.dateReceived = some d0 →
        0 < rec.totalCycleTime →
        (civilFromDays (daysFromCivil d0 + rec.totalCycleTime.toNat)).y ≤ 9999 →
        deriveDateClosed rec =
          { rec with dateClosed :=
              renderIso (civilFromDays (daysFromCivil d0 + rec.totalCycleTime.toNat)) })
      ∧ (¬ (rec.dateClosed = "" ∧ 0 < rec.totalCycleTime ∧
            ∃ d0 : Ymd, parseIso rec.dateReceived = some d0 ∧
              (civilFromDays (daysFromCivil d0 + rec.totalCycleTime.toNat)).y ≤ 9999) →
          deriveDateClosed rec = rec) := by
  constructor
  · intro d0 h1 h2 h3 h4
    have hne : rec.dateReceived ≠ "" := by
      intro he
      rw [he] at h2
      have h0 : parseIso "" = (none : Option Ymd) := by decide
      rw [h0] at h2
      exact Option.noConfusion h2
    have ha : addDaysChecked d0 rec.totalCycleTime.toNat =
        some (civilFromDays (daysFromCivil d0 + rec.totalCycleTime.toNat)) := by
      simp only [addDaysChecked]
      rw [if_pos h4]
    rw [deriveDateClosed, if_pos (by simp [h1, hne, h3])]
    simp only [h2, ha]
  · intro hng
    rw [deriveDateClosed]
    by_cases hc : (rec.dateClosed = "" && rec.dateReceived != "" &&
        rec.totalCycleTime > 0) = true
    · rw [if_pos hc]
      simp only [Bool.and_eq_true, decide_eq_true_eq, bne_iff_ne] at hc
      obtain ⟨⟨hdc, hdr⟩, htc⟩ := hc
      cases hp : parseIso rec.dateReceived with
      | none => rfl
      | some d0 =>
        have hy : ¬ (civilFromDays (daysFromCivil d0 + rec.totalCycleTime.toNat)).y ≤ 9999 := by
          intro hle
          exact hng ⟨hdc, htc, d0, hp, hle⟩
        have ha : addDaysChecked d0 rec.totalCycleTime.toNat = none := by
          simp only [addDaysChecked]
          rw [if_neg hy]
        simp only [ha]
    · rw [if_neg hc]

/-- C4 witness (the spec's example): Date Received "2024-01-01" with Total
Cycle Time 10 and empty Date Closed derives Date Closed "2024-01-11". -/
theorem c4_derive_date_closed_witness :
    parseIso "2024-01-01" = some ⟨2024, 1, 1⟩
      ∧ (deriveDateClosed
          { dateReceived := "2024-01-01", totalCycleTime := 10 } : Matter).dateClosed =
        "2024-01-11" := by
  refine ⟨by decide, ?_⟩
  have h := (c4_derive_date_closed_amended
      { dateReceived := "2024-01-01", totalCycleTime := 10 }).1
    ⟨2024, 1, 1⟩ rfl (by decide) (by decide) (by decide)
  rw [h]
  decide

theorem rowLeB_trans (a b c : OwnerRow) (hab : rowLeB a b = true) (hbc : rowLeB b c = true) :
    rowLeB a c = true := by
  simp only [rowLeB, Bool.or_eq_true, Bool.and_eq_true, decide_eq_true_eq, beq_iff_eq]
    at hab hbc ⊢
  rcases hab with h1 | ⟨h1, h2⟩
  · rcases hbc with h3 | ⟨h3, h4⟩
    · left; omega
    · left; omega
  · rcases hbc with h3 | ⟨h3, h4⟩
    · left; omega
    · right
      exact ⟨h1.trans h3, strLe_trans _ _ _ h2 h4⟩

theorem rowLeB_total (a b : OwnerRow) : rowLeB a b = true ∨ rowLeB b a = true := by
  simp only [rowLeB, Bool.or_eq_true, Bool.and_eq_true, decide_eq_true_eq, beq_iff_eq]
  rcases Nat.lt_trichotomy a.total b.total with h | h | h
  · right; left; exact h
  · rcases strLe_total (pyLower a.owner) (pyLower b.owner) with h2 | h2
    · left; right; exact ⟨h, h2⟩
    · right; right; exact ⟨h.symm, h2⟩
  · left; left; exact h

/-- C9: the owner-table rows are sorted descending by Total, with ties
broken ascending by the owner name compared case-insensitively
(lowercased, in Python's string order); the spec's example with totals
[5,5,3] for Bob, Alice, Zed orders as Alice(5), Bob(5), Zed(3). -/
theorem c9_owner_table_order :
    (∀ matters : List Matter,
      (compute_owner_table matters).Pairwise
        (fun a b => b.total < a.total ∨
          (a.total = b.total ∧ strLe (pyLower a.owner) (pyLower b.owner) = true)))
      ∧ (compute_owner_table
          [{ overallStatus := "Open", owner := "Bob", ref := "1" },
           { overallStatus := "Open", owner := "Bob", ref := "2" },
           { overallStatus := "Open", owner := "Bob", ref := "3" },
           { overallStatus := "Open", owner := "Bob", ref := "4" },
           { overallStatus := "Open", owner := "Bob", ref := "5" },
           { overallStatus := "Open", owner := "Alice", ref := "6" },
           { overallStatus := "Open", owner := "Alice", ref := "7" },
           { overallStatus := "Open", owner := "Alice", ref := "8" },
           { overallStatus := "Open", owner := "Alice", ref := "9" },
           { overallStatus := "Open", owner := "Alice", ref := "10" },
           { overallStatus := "Open", owner := "Zed", ref := "11" },
           { overallStatus := "Open", owner := "Zed", ref := "12" },
           { overallStatus := "Open", owner := "Zed", ref := "13" }]).map
          (fun r => (r.owner, r.total)) =
        [("Alice", 5), ("Bob", 5), ("Zed", 3)] := by
  constructor
  · intro matters
    have h := pairwise_insertionSort rowLeB rowLeB_trans rowLeB_total
      ((matters.filter (fun m => pyLower m.overallStatus == "open")).foldl
        (fun acc m => ownerBump (ownerKeyOf m) (stage_bucket m.stage == "Legal") acc) [])
    refine List.Pairwise.imp ?_ h
    intro a b hab
    simpa only [rowLeB, Bool.or_eq_true, Bool.and_eq_true, decide_eq_true_eq, beq_iff_eq]
      using hab
  · decide

/-- C6: deleting an owner whose name matches (after trim and lowercase,
the code's comparison) the Owner field of at least one matter is rejected
as still-in-use with both stores unchanged; when no matter matches,
deletion succeeds, the matter store is untouched, and exactly the users
with the requested id are removed — exactly one user when ids are
distinct. -/
theorem c6_owner_delete (users : List User) (matters : List Matter) (uid : String) (u : User)
    (hu : users.find? (fun x => x.id == uid) = some u) :
    ((∃ m ∈ matters, pyLower (pyTrim m.owner) = pyLower (pyTrim u.name)) →
        owners_delete users matters uid = (DeleteOutcome.stillInUse, users, matters))
      ∧ ((∀ m ∈ matters, pyLower (pyTrim m.owner) ≠ pyLower (pyTrim u.name)) →
          (owners_delete users matters uid).1 = DeleteOutcome.deleted
            ∧ (owners_delete users matters uid).2.1 = users.filter (fun x => x.id != uid)
            ∧ (owners_delete users matters uid).2.2 = matters
            ∧ ((users.map (fun x => x.id)).Nodup →
                (owners_delete users matters uid).2.1.length + 1 = users.length)) := by
  have hbody : owners_delete users matters uid =
      (if matters.any (fun m => pyLower (pyTrim m.owner) == pyLower (pyTrim u.name)) then
        (DeleteOutcome.stillInUse, users, matters)
      else (DeleteOutcome.deleted, users.filter (fun x => x.id != uid), matters)) := by
    rw [owners_delete, hu]
  constructor
  · rintro ⟨m, hm, he⟩
    have hc : matters.any (fun m => pyLower (pyTrim m.owner) == pyLower (pyTrim u.name))
        = true :=
      List.any_eq_true.mpr ⟨m, hm, by simp [he]⟩
    rw [hbody, if_pos hc]
  · intro hall
    have hc : ¬ matters.any (fun m => pyLower (pyTrim m.owner) == pyLower (pyTrim u.name))
        = true := by
      rw [List.any_eq_true]
      rintro ⟨m, hm, he⟩
      exact hall m hm (by simpa using he)
    have hdel : owners_delete users matters uid =
        (DeleteOutcome.deleted, users.filter (fun x => x.id != uid), matters) := by
      rw [hbody, if_neg hc]
    refine ⟨by rw [hdel], by rw [hdel], by rw [hdel], ?_⟩
    intro hnodup
    rw [hdel]
    have hmem : u ∈ users := List.mem_of_find?_eq_some hu
    have hid : u.id = uid := by simpa using List.find?_some hu
    have hcount : users.countP (fun x => x.id == uid) = 1 := by
      have hle : users.countP (fun x => x.id == uid) ≤ 1 := by
        have h1 := List.nodup_iff_count_le_one.mp hnodup uid
        rw [List.count, List.countP_map] at h1
        exact h1
      have hpos : 0 < users.countP (fun x => x.id == uid) :=
        List.countP_pos_iff.mpr ⟨u, hmem, by simp [hid]⟩
      omega
    have hsplit := List.length_eq_countP_add_countP (fun x => x.id == uid) users
    have hflen : (users.filter (fun x => x.id != uid)).length =
        users.countP (fun x => x.id != uid) :=
      (List.countP_eq_length_filter _ _).symm
    have hiff : users.countP (fun x => x.id != uid) =
        users.countP (fun x => ¬ (x.id == uid) = true) := by
      apply List.countP_congr
      intro x _
      simp [bne]
    rw [hflen, hiff]
    omega

/-- C6 witness: the owner "Bob" (id "u1") is referenced by a matter whose
Owner field is "BOB " (case and trailing-space differences), so deletion
is rejected and both stores are unchanged. -/
theorem c6_owner_delete_witness :
    ([({ id := "u1", name := "Bob", jobTitle := "", function := "" } : User)].find?
        (fun x => x.id == "u1") =
      some { id := "u1", name := "Bob", jobTitle := "", function := "" })
      ∧ owners_delete [{ id := "u1", name := "Bob", jobTitle := "", function := "" }]
          [{ owner := "BOB ", ref := "r1" }] "u1" =
        (DeleteOutcome.stillInUse,
         [{ id := "u1", name := "Bob", jobTitle := "", function := "" }],
         [{ owner := "BOB ", ref := "r1" }]) :=
  ⟨by decide,
    (c6_owner_delete [{ id := "u1", name := "Bob", jobTitle := "", function := "" }]
        [{ owner := "BOB ", ref := "r1" }] "u1"
        { id := "u1", name := "Bob", jobTitle := "", function := "" } (by decide)).1
      ⟨{ owner := "BOB ", ref := "r1" }, List.mem_cons_self _ _, by decide⟩⟩

theorem find_user_append_left (us vs : List User) (n : String) (u : User)
    (h : find_user_by_name us n = some u) : find_user_by_name (us ++ vs) n = some u := by
  unfold find_user_by_name at h ⊢
  rw [List.find?_append, h]
  rfl

theorem provisionOwners_append (gen : Nat → String) (ns : List String) :
    ∀ (k : Nat) (us : List User), ∃ vs, provisionOwners gen k us ns = us ++ vs := by
  induction ns with
  | nil => exact fun k us => ⟨[], (List.append_nil us).symm⟩
  | cons n ns ih =>
    intro k us
    cases hf : find_user_by_name us n with
    | some u =>
      obtain ⟨vs, hvs⟩ := ih k us
      exact ⟨vs, by simp only [provisionOwners, hf, hvs]⟩
    | none =>
      obtain ⟨vs, hvs⟩ := ih (k + 1) (us ++ [⟨gen k, n, "", ""⟩])
      refine ⟨⟨gen k, n, "", ""⟩ :: vs, ?_⟩
      simp only [provisionOwners, hf, hvs, List.append_assoc, List.singleton_append]

theorem find_user_provisionOwners (gen : Nat → String) (ns : List String) :
    ∀ (k : Nat) (us : List User) (n : String), n ∈ ns →
      (find_user_by_name (provisionOwners gen k us ns) n).isSome = true := by
  induction ns with
  | nil => intro k us n hn; simp at hn
  | cons n0 ns ih =>
    intro k us n hn
    rcases List.mem_cons.mp hn with rfl | hn2
    · cases hf : find_user_by_name us n with
      | some u =>
        simp only [provisionOwners, hf]
        obtain ⟨vs, hvs⟩ := provisionOwners_append gen ns k us
        rw [hvs, find_user_append_left us vs n u hf]
        rfl
      | none =>
        simp only [provisionOwners, hf]
        obtain ⟨vs, hvs⟩ := provisionOwners_append gen ns (k + 1) (us ++ [⟨gen k, n, "", ""⟩])
        have hfind : find_user_by_name (us ++ [⟨gen k, n, "", ""⟩]) n =
            some ⟨gen k, n, "", ""⟩ := by
          unfold find_user_by_name at hf ⊢
          rw [List.find?_append, hf]
          simp
        rw [hvs, find_user_append_left _ vs n _ hfind]
        rfl
    · cases hf : find_user_by_name us n0 with
      | some u =>
        simp only [provisionOwners, hf]
        exact ih k us n hn2
      | none =>
        simp only [provisionOwners, hf]
        exact ih (k + 1) _ n hn2

theorem provisionOwners_of_all_found (gen : Nat → String) (ns : List String) :
    ∀ (k : Nat) (us : List User),
      (∀ n ∈ ns, (find_user_by_name us n).isSome = true) →
      provisionOwners gen k us ns = us := by
  induction ns with
  | nil => intro k us _; rfl
  | cons n ns ih =>
    intro k us h
    have h0 := h n (List.mem_cons_self n ns)
    cases hf : find_user_by_name us n with
    | none => rw [hf] at h0; exact absurd h0 (by simp)
    | some u =>
      simp only [provisionOwners, hf]
      exact ih k us (fun n2 hn2 => h n2 (List.mem_cons_of_mem n hn2))

/-- C7: owner auto-provisioning is idempotent: over any owner store and
any import batch, provisioning the batch's candidate names a second time
(with any id generator and counter) returns the store produced by the
first run unchanged — a name that already has a case-insensitively (and
trim-insensitively) matching owner never causes a second creation. -/
theorem c7_provision_idempotent (gen1 gen2 : Nat → String) (k1 k2 : Nat)
    (users : List User) (records : List Matter) :
    provisionOwners gen2 k2 (provisionOwners gen1 k1 users (collectOwnerNames records))
        (collectOwnerNames records) =
      provisionOwners gen1 k1 users (collectOwnerNames records) :=
  provisionOwners_of_all_found gen2 (collectOwnerNames records) k2 _
    (fun n hn => find_user_provisionOwners gen1 (collectOwnerNames records) k1 users n hn)

/-- The ids already present (truthy) on disk, in store order, read through
the legacy-key canonicalization the loader applies first. -/
def keptIds (raws : List RawMatter) : List String :=
  raws.filterMap (fun m =>
    if idTruthy (canonicalize_matter_keys m) then alGet (canonicalize_matter_keys m) "id"
    else none)

/-- The id of each loaded record as the claim describes it: the disk id
when one is present, else the next fresh id from the generator. -/
def idsSpec (gen : Nat → String) (k : Nat) : List RawMatter → List String
  | [] => []
  | m :: ms =>
    if idTruthy (canonicalize_matter_keys m) then
      ((alGet (canonicalize_matter_keys m) "id").getD "") :: idsSpec gen k ms
    else gen k :: idsSpec gen (k + 1) ms

theorem alGet_append_of_some {m : RawMatter} (l : RawMatter) {k v : String}
    (h : alGet m k = some v) : alGet (m ++ l) k = some v := by
  unfold alGet at h ⊢
  rw [List.find?_append]
  cases hf : m.find? (fun p => p.1 == k) with
  | none => rw [hf] at h; exact absurd h (by simp)
  | some p =>
    rw [hf] at h
    simpa using h

theorem alGet_append_single_ne (m : RawMatter) (f v k : String) (h : f ≠ k) :
    alGet (m ++ [(f, v)]) k = alGet m k := by
  unfold alGet
  rw [List.find?_append]
  cases hf : m.find? (fun p => p.1 == k) with
  | some p => simp
  | none =>
    simp only [Option.none_or]
    rw [List.find?_cons_of_neg _ (by simp [h])]
    simp

theorem alHas_append_left {m : RawMatter} (l : RawMatter) {k : String}
    (h : alHas m k = true) : alHas (m ++ l) k = true := by
  unfold alHas at h ⊢
  rw [List.any_append, h]
  rfl

theorem alGet_ensure_foldl_ne (k : String) : ∀ (fs : List String), k ∉ fs →
    ∀ m : RawMatter,
      alGet (fs.foldl (fun m f => if alHas m f then m else m ++ [(f, "")]) m) k =
        alGet m k := by
  intro fs
  induction fs with
  | nil => intro _ m; rfl
  | cons f fs ih =>
    intro hk m
    have hk2 : k ∉ fs := fun h => hk (List.mem_cons_of_mem f h)
    have hfk : f ≠ k := fun he => hk (he ▸ List.mem_cons_self f fs)
    rw [List.foldl_cons, ih hk2]
    by_cases h : alHas m f = true
    · rw [if_pos h]
    · rw [if_neg h, alGet_append_single_ne m f "" k hfk]

theorem alGet_ensureFields_id (m : RawMatter) :
    alGet (ensureFields m) "id" = alGet m "id" := by
  unfold ensureFields
  exact alGet_ensure_foldl_ne "id" FIELDS (by decide) m

theorem alHas_ensure_foldl (fs : List String) :
    ∀ (m : RawMatter) (f : String), (alHas m f = true ∨ f ∈ fs) →
      alHas (fs.foldl (fun m f => if alHas m f then m else m ++ [(f, "")]) m) f = true := by
  induction fs with
  | nil =>
    intro m f h
    rcases h with h | h
    · exact h
    · simp at h
  | cons f0 fs ih =>
    intro m f h
    rw [List.foldl_cons]
    rcases h with h | h
    · refine ih _ f (Or.inl ?_)
      by_cases h0 : alHas m f0 = true
      · rw [if_pos h0]; exact h
      · rw [if_neg h0]; exact alHas_append_left _ h
    · rcases List.mem_cons.mp h with rfl | h2
      · refine ih _ f (Or.inl ?_)
        by_cases h0 : alHas m f = true
        · rw [if_pos h0]; exact h0
        · rw [if_neg h0]
          unfold alHas
          rw [List.any_append]
          simp
      · exact ih _ f (Or.inr h2)

theorem alHas_ensureFields (m : RawMatter) (f : String) (hf : f ∈ FIELDS) :
    alHas (ensureFields m) f = true := by
  unfold ensureFields
  exact alHas_ensure_foldl FIELDS m f (Or.inr hf)

theorem find?_map_set_self (k v : String) : ∀ (m : RawMatter), alHas m k = true →
    (m.map (fun p => if p.1 == k then (k, v) else p)).find? (fun p => p.1 == k) =
      some (k, v) := by
  intro m
  induction m with
  | nil => intro h; simp [alHas] at h
  | cons p m ih =>
    intro h
    by_cases hp : (p.1 == k) = true
    · simp only [List.map_cons, if_pos hp, List.find?_cons, beq_self_eq_true]
    · have hp2 : (p.1 == k) = false := by simpa using hp
      simp only [List.map_cons, if_neg hp]
      simp only [List.find?_cons, hp2]
      apply ih
      have h2 : (List.any (p :: m) fun q => q.1 == k) = true := h
      rw [List.any_cons, hp2, Bool.false_or] at h2
      exact h2

theorem alGet_alSet_self (m : RawMatter) (k v : String) : alGet (alSet m k v) k = some v := by
  unfold alSet
  by_cases h : alHas m k = true
  · rw [if_pos h]
    unfold alGet
    rw [find?_map_set_self k v m h]
    rfl
  · rw [if_neg h]
    unfold alGet
    rw [List.find?_append]
    have hf : m.find? (fun p => p.1 == k) = none := by
      rw [List.find?_eq_none]
      intro p hp hpk
      exact h (List.any_eq_true.mpr ⟨p, hp, hpk⟩)
    rw [hf]
    simp

theorem find?_map_set_ne (k k1 v : String) (hne : k1 ≠ k) : ∀ (m : RawMatter),
    (m.map (fun p => if p.1 == k then (k, v) else p)).find? (fun p => p.1 == k1) =
      m.find? (fun p => p.1 == k1) := by
  intro m
  induction m with
  | nil => rfl
  | cons p m ih =>
    by_cases hp : (p.1 == k) = true
    · have hp1 : p.1 = k := by simpa using hp
      have hq : (p.1 == k1) = false := by
        rw [beq_eq_false_iff_ne, hp1]
        exact fun h => hne h.symm
      have hq2 : ((k : String) == k1) = false := by
        rw [beq_eq_false_iff_ne]
        exact fun h => hne h.symm
      simp only [List.map_cons, if_pos hp, List.find?_cons, hq, hq2]
      exact ih
    · simp only [List.map_cons, if_neg hp, List.find?_cons]
      cases hq : (p.1 == k1) with
      | true => rfl
      | false => exact ih

theorem alGet_alSet_ne (m : RawMatter) (k k1 v : String) (h : k1 ≠ k) :
    alGet (alSet m k v) k1 = alGet m k1 := by
  unfold alSet
  by_cases hh : alHas m k = true
  · rw [if_pos hh]
    unfold alGet
    rw [find?_map_set_ne k k1 v h m]
  · rw [if_neg hh]
    exact alGet_append_single_ne m k v k1 (fun he => h he.symm)

theorem alGet_alRemove_ne (m : RawMatter) (k k1 : String) (h : k1 ≠ k) :
    alGet (alRemove m k) k1 = alGet m k1 := by
  unfold alGet alRemove
  induction m with
  | nil => rfl
  | cons p m ih =>
    by_cases hp : (p.1 != k) = true
    · rw [List.filter_cons, if_pos hp]
      simp only [List.find?_cons]
      cases hq : (p.1 == k1) with
      | true => rfl
      | false =>
        simp only [hq]
        exact ih
    · have hp1 : p.1 = k := by simpa using hp
      have hq : (p.1 == k1) = false := by
        rw [beq_eq_false_iff_ne, hp1]
        exact fun he => h he.symm
      rw [List.filter_cons, if_neg hp]
      conv_rhs => rw [List.find?_cons]
      simp only [hq]
      exact ih

theorem alGet_step_id (m : RawMatter) (old nw v : String) (h1 : "id" ≠ old)
    (h2 : "id" ≠ nw) :
    alGet (alSet (alRemove m old) nw v) "id" = alGet m "id" := by
  rw [alGet_alSet_ne _ _ _ _ h2, alGet_alRemove_ne _ _ _ h1]

theorem alGet_canonicalize_id (m : RawMatter) :
    alGet (canonicalize_matter_keys m) "id" = alGet m "id" := by
  unfold canonicalize_matter_keys LEGACY_TO_CANON
  simp only [List.foldl_cons, List.foldl_nil]
  split_ifs <;>
    ((repeat rw [alGet_step_id _ _ _ _ (by decide) (by decide)]); try rfl)

theorem idTruthy_iff (m : RawMatter) :
    idTruthy m = true ↔ ∃ v, alGet m "id" = some v ∧ v ≠ "" := by
  unfold idTruthy
  cases h : alGet m "id" with
  | none => simp
  | some v => simp

theorem idTruthy_ensure (m : RawMatter) : idTruthy (ensureFields m) = idTruthy m := by
  unfold idTruthy
  rw [alGet_ensureFields_id]

theorem loadOne_kept {gen : Nat → String} {k : Nat} {m : RawMatter}
    (h : idTruthy (canonicalize_matter_keys m) = true) :
    loadOne gen k m = (ensureFields (canonicalize_matter_keys m), k, false) := by
  simp only [loadOne, if_pos h]

theorem loadOne_gen {gen : Nat → String} {k : Nat} {m : RawMatter}
    (h : ¬ idTruthy (canonicalize_matter_keys m) = true) :
    loadOne gen k m =
      (ensureFields (alSet (canonicalize_matter_keys m) "id" (gen k)), k + 1, true) := by
  simp only [loadOne, if_neg h]

theorem get_matters_cons (gen : Nat → String) (k : Nat) (m : RawMatter)
    (ms : List RawMatter) :
    get_matters gen k (m :: ms) =
      ((loadOne gen k m).1 :: (get_matters gen (loadOne gen k m).2.1 ms).1,
       (get_matters gen (loadOne gen k m).2.1 ms).2.1,
       (loadOne gen k m).2.2 || (get_matters gen (loadOne gen k m).2.1 ms).2.2) := rfl

theorem get_matters_fst_kept {gen : Nat → String} {k : Nat} {m : RawMatter}
    {ms : List RawMatter} (h : idTruthy (canonicalize_matter_keys m) = true) :
    (get_matters gen k (m :: ms)).1 =
      ensureFields (canonicalize_matter_keys m) :: (get_matters gen k ms).1 := by
  rw [get_matters_cons, loadOne_kept h]

theorem get_matters_fst_gen {gen : Nat → String} {k : Nat} {m : RawMatter}
    {ms : List RawMatter} (h : ¬ idTruthy (canonicalize_matter_keys m) = true) :
    (get_matters gen k (m :: ms)).1 =
      ensureFields (alSet (canonicalize_matter_keys m) "id" (gen k)) ::
        (get_matters gen (k + 1) ms).1 := by
  rw [get_matters_cons, loadOne_gen h]

theorem loadedIds_cons (a : RawMatter) (l : List RawMatter) :
    loadedIds (a :: l) = ((alGet a "id").getD "") :: loadedIds l := rfl

theorem loadedIds_get_matters (gen : Nat → String) :
    ∀ (raws : List RawMatter) (k : Nat),
      loadedIds (get_matters gen k raws).1 = idsSpec gen k raws := by
  intro raws
  induction raws with
  | nil => intro k; rfl
  | cons m ms ih =>
    intro k
    by_cases h : idTruthy (canonicalize_matter_keys m) = true
    · rw [get_matters_fst_kept h, loadedIds_cons, alGet_ensureFields_id, ih k]
      simp only [idsSpec, if_pos h]
    · rw [get_matters_fst_gen h, loadedIds_cons, alGet_ensureFields_id, alGet_alSet_self,
        ih (k + 1)]
      simp only [idsSpec, if_neg h, Option.getD_some]

theorem keptIds_cons_kept {m : RawMatter} {v : String} (ms : List RawMatter)
    (h : idTruthy (canonicalize_matter_keys m) = true)
    (hv : alGet (canonicalize_matter_keys m) "id" = some v) :
    keptIds (m :: ms) = v :: keptIds ms := by
  simp [keptIds, h, hv]

theorem keptIds_cons_gen {m : RawMatter} (ms : List RawMatter)
    (h : ¬ idTruthy (canonicalize_matter_keys m) = true) :
    keptIds (m :: ms) = keptIds ms := by
  simp [keptIds, h]

theorem mem_idsSpec (gen : Nat → String) :
    ∀ (raws : List RawMatter) (k : Nat) (x : String),
      x ∈ idsSpec gen k raws → x ∈ keptIds raws ∨ ∃ j, k ≤ j ∧ x = gen j := by
  intro raws
  induction raws with
  | nil => intro k x hx; simp [idsSpec] at hx
  | cons m ms ih =>
    intro k x hx
    by_cases h : idTruthy (canonicalize_matter_keys m) = true
    · obtain ⟨v, hv, hvne⟩ := (idTruthy_iff _).mp h
      simp only [idsSpec, if_pos h, hv, Option.getD_some] at hx
      rcases List.mem_cons.mp hx with rfl | hx2
      · left
        rw [keptIds_cons_kept ms h hv]
        exact List.mem_cons_self _ _
      · rcases ih k x hx2 with h2 | ⟨j, hj, he⟩
        · left
          rw [keptIds_cons_kept ms h hv]
          exact List.mem_cons_of_mem _ h2
        · right; exact ⟨j, hj, he⟩
    · simp only [idsSpec, if_neg h] at hx
      rcases List.mem_cons.mp hx with rfl | hx2
      · right; exact ⟨k, Nat.le_refl k, rfl⟩
      · rcases ih (k + 1) x hx2 with h2 | ⟨j, hj, he⟩
        · left
          rw [keptIds_cons_gen ms h]
          exact h2
        · right; exact ⟨j, by omega, he⟩

theorem idsSpec_nodup (gen : Nat → String) (hinj : ∀ i j, gen i = gen j → i = j) :
    ∀ (raws : List RawMatter) (k : Nat),
      (keptIds raws).Nodup →
      (∀ n v, v ∈ keptIds raws → gen n ≠ v) →
      (idsSpec gen k raws).Nodup := by
  intro raws
  induction raws with
  | nil => intro k _ _; simp [idsSpec]
  | cons m ms ih =>
    intro k hnd hfresh
    by_cases h : idTruthy (canonicalize_matter_keys m) = true
    · obtain ⟨v, hv, hvne⟩ := (idTruthy_iff _).mp h
      rw [keptIds_cons_kept ms h hv] at hnd hfresh
      simp only [idsSpec, if_pos h, hv, Option.getD_some]
      rw [List.nodup_cons]
      refine ⟨?_, ?_⟩
      · intro hmem
        rcases mem_idsSpec gen ms k v hmem with h2 | ⟨j, hj, he⟩
        · exact (List.nodup_cons.mp hnd).1 h2
        · exact hfresh j v (List.mem_cons_self _ _) he.symm
      · exact ih k (List.nodup_cons.mp hnd).2
          (fun n w hw => hfresh n w (List.mem_cons_of_mem _ hw))
    · rw [keptIds_cons_gen ms h] at hnd hfresh
      simp only [idsSpec, if_neg h]
      rw [List.nodup_cons]
      refine ⟨?_, ?_⟩
      · intro hmem
        rcases mem_idsSpec gen ms (k + 1) (gen k) hmem with h2 | ⟨j, hj, he⟩
        · exact hfresh k (gen k) h2 rfl
        · have := hinj k j he
          omega
      · exact ih (k + 1) hnd hfresh

theorem get_matters_fields (gen : Nat → String) :
    ∀ (raws : List RawMatter) (k : Nat),
      ∀ m1 ∈ (get_matters gen k raws).1, ∀ f ∈ FIELDS, alHas m1 f = true := by
  intro raws
  induction raws with
  | nil => intro k m1 hm1; simp [get_matters] at hm1
  | cons m ms ih =>
    intro k
    by_cases h : idTruthy (canonicalize_matter_keys m) = true
    · rw [get_matters_fst_kept h]
      refine List.forall_mem_cons.mpr ⟨?_, ih k⟩
      intro f hf
      exact alHas_ensureFields _ f hf
    · rw [get_matters_fst_gen h]
      refine List.forall_mem_cons.mpr ⟨?_, ih (k + 1)⟩
      intro f hf
      exact alHas_ensureFields _ f hf

theorem get_matters_idTruthy (gen : Nat → String) (hgen : ∀ n, gen n ≠ "") :
    ∀ (raws : List RawMatter) (k : Nat),
      ∀ m1 ∈ (get_matters gen k raws).1, idTruthy m1 = true := by
  intro raws
  induction raws with
  | nil => intro k m1 hm1; simp [get_matters] at hm1
  | cons m ms ih =>
    intro k
    by_cases h : idTruthy (canonicalize_matter_keys m) = true
    · rw [get_matters_fst_kept h]
      refine List.forall_mem_cons.mpr ⟨?_, ih k⟩
      rw [idTruthy_ensure]
      exact h
    · rw [get_matters_fst_gen h]
      refine List.forall_mem_cons.mpr ⟨?_, ih (k + 1)⟩
      rw [idTruthy_ensure]
      exact (idTruthy_iff _).mpr ⟨gen k, alGet_alSet_self _ _ _, hgen k⟩

/-- C5 counterexample: the claim as stated is false: a store whose records
already carry the same non-empty id "x" is loaded with both ids kept as
"x", so the loaded ids are not unique. -/
theorem c5_duplicate_ids_counterexample :
    ¬ (loadedIds (get_matters (fun _ => "g") 0 [[("id", "x")], [("id", "x")]]).1).Nodup := by
  decide

/-- C5 (amended): every record returned by the loader has all canonical
fields present (absent ones defaulted to the empty string) and a truthy
(present, non-empty) id; each record's id is its id from disk when that
was truthy, else the next fresh generator id in order (so disk ids are
preserved and generated ids are assigned deterministically, then written
back); and the ids are pairwise distinct provided the generator never
returns empty, never collides with itself or with a truthy disk id, and
the truthy disk ids are themselves pairwise distinct. -/
theorem c5_loader_amended (gen : Nat → String) (k : Nat) (raws : List RawMatter)
    (hgen : ∀ n, gen n ≠ "")
    (hinj : ∀ i j, gen i = gen j → i = j)
    (hfresh : ∀ n v, v ∈ keptIds raws → gen n ≠ v)
    (hnodup : (keptIds raws).Nodup) :
    (∀ m ∈ (get_matters gen k raws).1, ∀ f ∈ FIELDS, alHas m f = true)
      ∧ (∀ m ∈ (get_matters gen k raws).1, idTruthy m = true)
      ∧ loadedIds (get_matters gen k raws).1 = idsSpec gen k raws
      ∧ (loadedIds (get_matters gen k raws).1).Nodup := by
  refine ⟨get_matters_fields gen raws k, get_matters_idTruthy gen hgen raws k,
    loadedIds_get_matters gen raws k, ?_⟩
  rw [loadedIds_get_matters gen raws k]
  exact idsSpec_nodup gen hinj raws k hnodup hfresh

/-- C5 witness: a store with one record carrying id "x" and one record
without an id loads with all canonical fields present, truthy ids, the
disk id preserved, one fresh generated id, and distinct ids. -/
theorem c5_loader_witness :
    (∀ m ∈ (get_matters (fun n => ⟨List.replicate (n + 1) 'g'⟩) 0
          [[("id", "x")], [("Ref", "M-1")]]).1,
        ∀ f ∈ FIELDS, alHas m f = true)
      ∧ (∀ m ∈ (get_matters (fun n => ⟨List.replicate (n + 1) 'g'⟩) 0
            [[("id", "x")], [("Ref", "M-1")]]).1, idTruthy m = true)
      ∧ loadedIds (get_matters (fun n => ⟨List.replicate (n + 1) 'g'⟩) 0
            [[("id", "x")], [("Ref", "M-1")]]).1 =
          idsSpec (fun n => ⟨List.replicate (n + 1) 'g'⟩) 0 [[("id", "x")], [("Ref", "M-1")]]
      ∧ (loadedIds (get_matters (fun n => ⟨List.replicate (n + 1) 'g'⟩) 0
            [[("id", "x")], [("Ref", "M-1")]]).1).Nodup := by
  have hgen : ∀ n : Nat, (⟨List.replicate (n + 1) 'g'⟩ : String) ≠ "" := by
    intro n h
    have h2 : List.replicate (n + 1) 'g' = ([] : List Char) := congrArg String.toList h
    simp [List.replicate_succ] at h2
  have hinj : ∀ i j : Nat,
      (⟨List.replicate (i + 1) 'g'⟩ : String) = ⟨List.replicate (j + 1) 'g'⟩ → i = j := by
    intro i j h
    have h2 : List.replicate (i + 1) 'g' = List.replicate (j + 1) 'g' :=
      congrArg String.toList h
    have h3 := congrArg List.length h2
    simpa using h3
  have hkept : keptIds [[("id", "x")], [("Ref", "M-1")]] = ["x"] := by decide
  have hfresh : ∀ (n : Nat) (v : String), v ∈ keptIds [[("id", "x")], [("Ref", "M-1")]] →
      (⟨List.replicate (n + 1) 'g'⟩ : String) ≠ v := by
    intro n v hv h
    rw [hkept] at hv
    simp only [List.mem_cons, List.not_mem_nil, or_false] at hv
    subst hv
    have h2 : List.replicate (n + 1) 'g' = String.toList "x" := congrArg String.toList h
    simp [List.replicate_succ] at h2
  exact c5_loader_amended (fun n => ⟨List.replicate (n + 1) 'g'⟩) 0
    [[("id", "x")], [("Ref", "M-1")]] hgen hinj hfresh (by rw [hkept]; decide)

/-- C1: the claim says reconciling the columns
`["Reference", "Received", "Vendor"]` binds "Reference" to Ref,
"Received" to Date Received and "Vendor" to Counterparty. The code does
not: because the `HEADER_ALIASES` dict literal repeats the key
"Date Received" (last value wins in Python), "Received" is not an
effective alias and no squashed form matches it either, so the computed
mapping binds only "Reference" and "Vendor". This theorem evaluates the
code at the failing input. -/
theorem c1_header_reconciliation_example :
    normalize_headers ["Reference", "Received", "Vendor"] =
      [("Reference", "Ref"), ("Vendor", "Counterparty")] := by decide

/-- C3: MonthlyCounts excludes records with an empty Date Received, buckets
the rest by the 7-character month prefix of Date Received, emits the
month keys sorted ascending (in Python's string order) with the aligned
per-month new and closed counts (closed = `is_closed`, bucketed by the
receipt month), and a rolling series equal to the running cumulative sum
of (new - closed) in chronological order; in particular the spec's
example (three 2024-01 receipts, one closed; two 2024-02 receipts, none
closed) yields months ["2024-01","2024-02"], new [3,2], closed [1,0],
rolling [2,4]. -/
theorem c3_monthly_counts :
    (∀ matters : List Matter,
      (compute_monthly_counts matters).1.Pairwise (fun a b => strLt a b = true)
        ∧ (∀ x : String, x ∈ (compute_monthly_counts matters).1 ↔
            x ≠ "" ∧ ∃ m ∈ matters, month_key m.dateReceived = x)
        ∧ (compute_monthly_counts matters).2.1 =
            (compute_monthly_counts matters).1.map
              (fun mk => matters.countP (fun m => month_key m.dateReceived == mk))
        ∧ (compute_monthly_counts matters).2.2.1 =
            (compute_monthly_counts matters).1.map
              (fun mk => matters.countP
                (fun m => month_key m.dateReceived == mk && is_closed m))
        ∧ (compute_monthly_counts matters).2.2.2 =
            cumsum (List.zipWith (fun (a b : Nat) => (a : Int) - (b : Int))
              (compute_monthly_counts matters).2.1
              (compute_monthly_counts matters).2.2.1))
    ∧ compute_monthly_counts
        [{ ref := "a", dateReceived := "2024-01-05", overallStatus := "Closed" },
         { ref := "b", dateReceived := "2024-01-10", overallStatus := "Open" },
         { ref := "c", dateReceived := "2024-01-15", overallStatus := "Open" },
         { ref := "d", dateReceived := "2024-02-03", overallStatus := "Open" },
         { ref := "e", dateReceived := "2024-02-04", overallStatus := "Open" }] =
      (["2024-01", "2024-02"], [3, 2], [1, 0], [2, 4]) := by
  constructor
  · intro matters
    set cN := matters.foldl newStep [] with hcN
    set cC := matters.foldl closedStep [] with hcC
    set M := sortedDedup (counterKeys cN ++ counterKeys cC) with hM
    have key : compute_monthly_counts matters =
        (M, M.map (counterGet cN), M.map (counterGet cC),
         (M.foldl
           (fun st mk =>
             (st.1 + (counterGet cN mk : Int) - (counterGet cC mk : Int),
              st.2 ++ [st.1 + (counterGet cN mk : Int) - (counterGet cC mk : Int)]))
           ((0 : Int), ([] : List Int))).2) := by
      simp only [compute_monthly_counts]
      rw [foldl_monthlyStep_fst, foldl_monthlyStep_snd, ← hcN, ← hcC, ← hM]
    have hmem : ∀ x : String, x ∈ M ↔ x ≠ "" ∧ ∃ m ∈ matters, month_key m.dateReceived = x := by
      intro x
      rw [hM, mem_sortedDedup, List.mem_append]
      constructor
      · rintro (hx | hx)
        · rcases (mem_counterKeys_foldl_newStep matters x []).mp hx with h0 | ⟨m, hm, hne, he⟩
          · simp [counterKeys] at h0
          · exact ⟨he ▸ hne, m, hm, he⟩
        · rcases mem_counterKeys_foldl_closedStep matters x [] hx with h0 | ⟨m, hm, hne, he⟩
          · simp [counterKeys] at h0
          · exact ⟨he ▸ hne, m, hm, he⟩
      · rintro ⟨hne, m, hm, he⟩
        exact Or.inl ((mem_counterKeys_foldl_newStep matters x []).mpr
          (Or.inr ⟨m, hm, he ▸ hne, he⟩))
    refine ⟨?_, ?_, ?_, ?_, ?_⟩
    · rw [key]
      exact sortedDedup_sorted_lt _
    · intro x
      rw [key]
      exact hmem x
    · rw [key]
      show M.map (counterGet cN) = M.map _
      apply List.map_congr_left
      intro mk hmk
      have hne : mk ≠ "" := ((hmem mk).mp hmk).1
      rw [hcN, counterGet_foldl_newStep matters mk hne []]
      simp [counterGet]
    · rw [key]
      show M.map (counterGet cC) = M.map _
      apply List.map_congr_left
      intro mk hmk
      have hne : mk ≠ "" := ((hmem mk).mp hmk).1
      rw [hcC, counterGet_foldl_closedStep matters mk hne []]
      simp [counterGet]
    · rw [key]
      have hr := foldl_rolling (fun mk => (counterGet cN mk : Int))
        (fun mk => (counterGet cC mk : Int)) M 0 []
      simp only [List.nil_append] at hr
      refine hr.trans ?_
      rw [cumsum]
      congr 1
      rw [List.zipWith_map, zipWith_self_map]
  · decide

/-- C2: in append mode the surviving candidates are exactly those whose
(Ref, Counterparty, Date Received) triple matches no existing record;
they are appended, in their original order, after all existing records,
and the reported counts are the number of survivors and the number of
candidates minus survivors. -/
theorem c2_append_dedup (existing records : List Matter) :
    (mergeAppend existing records).1 =
        existing ++
          records.filter (fun r => !(decide (tripleMatchesExisting existing r)))
      ∧ (mergeAppend existing records).2.1 =
          (records.filter (fun r => !(decide (tripleMatchesExisting existing r)))).length
      ∧ (mergeAppend existing records).2.2 =
          records.length -
            (records.filter (fun r => !(decide (tripleMatchesExisting existing r)))).length := by
  have hf :
      records.filter (fun r => !((existing.map matterTriple).contains (matterTriple r))) =
        records.filter (fun r => !(decide (tripleMatchesExisting existing r))) := by
    apply List.filter_congr
    intro r _
    rw [contains_triple_iff]
  refine ⟨?_, ?_, ?_⟩ <;> simp only [mergeAppend, hf]

/-- C10: append-mode duplicate detection compares candidates only against
the pre-existing store, never against each other: in any batch, every
candidate whose (Ref, Counterparty, Date Received) triple matches no
existing record is appended, and the final store contains exactly as
many records carrying that triple as the batch supplied (none can come
from the existing store) — so two candidates in the same batch that
share a fresh triple are both appended, whatever the rest of the batch
contains. -/
theorem c10_batch_duplicates (existing records : List Matter) (r : Matter)
    (h : ¬ tripleMatchesExisting existing r) :
    (r ∈ records → r ∈ (mergeAppend existing records).1)
      ∧ (mergeAppend existing records).1.countP
            (fun x => matterTriple x == matterTriple r) =
          records.countP (fun x => matterTriple x == matterTriple r) := by
  have hsame : ∀ c : Matter, matterTriple c = matterTriple r →
      ¬ tripleMatchesExisting existing c := by
    intro c he hc
    obtain ⟨e, hme, h1, h2, h3⟩ := hc
    exact h ⟨e, hme, h1.trans (congrArg (fun t => t.1) he),
      h2.trans (congrArg (fun t => t.2.1) he),
      h3.trans (congrArg (fun t => t.2.2) he)⟩
  have hkeep : ∀ c : Matter, matterTriple c = matterTriple r →
      (!((existing.map matterTriple).contains (matterTriple c))) = true := by
    intro c he
    rw [contains_triple_iff]
    simpa using hsame c he
  constructor
  · intro hr
    show r ∈ existing ++
        records.filter (fun c => !((existing.map matterTriple).contains (matterTriple c)))
    refine List.mem_append.mpr (Or.inr ?_)
    rw [List.mem_filter]
    exact ⟨hr, hkeep r rfl⟩
  · show (existing ++
        records.filter
          (fun c => !((existing.map matterTriple).contains (matterTriple c)))).countP
        (fun x => matterTriple x == matterTriple r) = _
    rw [List.countP_append, List.countP_filter]
    have h0 : existing.countP (fun x => matterTriple x == matterTriple r) = 0 := by
      rw [List.countP_eq_zero]
      intro e hme hbe
      have he : matterTriple e = matterTriple r := by simpa using hbe
      exact h ⟨e, hme, congrArg (fun t => t.1) he, congrArg (fun t => t.2.1) he,
        congrArg (fun t => t.2.2) he⟩
    rw [h0, Nat.zero_add]
    apply List.countP_congr
    intro c _
    constructor
    · intro hand
      exact (Bool.and_eq_true _ _).mp hand |>.1
    · intro hp
      rw [Bool.and_eq_true]
      exact ⟨hp, hkeep c (by simpa using hp)⟩

/-- C10 witness: a mixed batch — one stale candidate duplicating the
existing record plus two identical fresh candidates. The stale candidate
is skipped, yet both fresh duplicates are appended: the fresh record is
in the final store, the store holds two records with its triple, and the
full result is (existing + both duplicates, imported 2, skipped 1). -/
theorem c10_batch_duplicates_witness :
    ¬ tripleMatchesExisting
        [{ ref := "A", counterparty := "X", dateReceived := "2024-01-01" }]
        { ref := "B", counterparty := "Y", dateReceived := "2024-02-02" }
      ∧ ({ ref := "B", counterparty := "Y", dateReceived := "2024-02-02" } : Matter) ∈
          (mergeAppend
            [{ ref := "A", counterparty := "X", dateReceived := "2024-01-01" }]
            [{ ref := "A", counterparty := "X", dateReceived := "2024-01-01",
               owner := "stale" },
             { ref := "B", counterparty := "Y", dateReceived := "2024-02-02" },
             { ref := "B", counterparty := "Y", dateReceived := "2024-02-02" }]).1
      ∧ (mergeAppend
            [{ ref := "A", counterparty := "X", dateReceived := "2024-01-01" }]
            [{ ref := "A", counterparty := "X", dateReceived := "2024-01-01",
               owner := "stale" },
             { ref := "B", counterparty := "Y", dateReceived := "2024-02-02" },
             { ref := "B", counterparty := "Y", dateReceived := "2024-02-02" }]).1.countP
            (fun x => matterTriple x ==
              matterTriple
                ({ ref := "B", counterparty := "Y", dateReceived := "2024-02-02" } :
                  Matter)) = 2
      ∧ mergeAppend
            [{ ref := "A", counterparty := "X", dateReceived := "2024-01-01" }]
            [{ ref := "A", counterparty := "X", dateReceived := "2024-01-01",
               owner := "stale" },
             { ref := "B", counterparty := "Y", dateReceived := "2024-02-02" },
             { ref := "B", counterparty := "Y", dateReceived := "2024-02-02" }] =
          ([{ ref := "A", counterparty := "X", dateReceived := "2024-01-01" },
            { ref := "B", counterparty := "Y", dateReceived := "2024-02-02" },
            { ref := "B", counterparty := "Y", dateReceived := "2024-02-02" }], 2, 1) := by
  have h10 := c10_batch_duplicates
    [{ ref := "A", counterparty := "X", dateReceived := "2024-01-01" }]
    [{ ref := "A", counterparty := "X", dateReceived := "2024-01-01", owner := "stale" },
     { ref := "B", counterparty := "Y", dateReceived := "2024-02-02" },
     { ref := "B", counterparty := "Y", dateReceived := "2024-02-02" }]
    { ref := "B", counterparty := "Y", dateReceived := "2024-02-02" }
    (by decide)
  refine ⟨by decide, h10.1 (by decide), ?_, by decide⟩
  rw [h10.2]
  decide

end LegalTracker
